import Mathlib

/-!
Verification of the warpa/warpalib Ren'Py archive codec.

This file is a shallow embedding, in Lean 4, of the core container codec of
the `warpalib` crate (src/warpalib/src): version identification
(`version.rs`), the record/index entry codec (`record.rs`), the content
abstraction (`content.rs`) and the archive open/flush pipeline
(`archive.rs`).

Modelling conventions:
* Rust byte streams, strings and paths are modelled as `List Nat`
  (a Rust `String` is its UTF-8 byte sequence; paths go through
  `to_string_lossy` at the archive boundary, so they are treated as byte
  strings as well).
* `u64` values are `Nat`; the only u64 arithmetic in the codec is xor
  (which cannot overflow), the flush offset accumulator (modelled with an
  explicit `% 2 ^ 64`) and one subtraction that can underflow, modelled as
  a checked subtraction returning `Option` (`Record.actual_length`): a
  `none` result stands for the Rust overflow panic.
* Fallible Rust code returns `RResult`, with a dedicated `panic`
  outcome for the places where the source can panic (slice index out of
  bounds, integer underflow).
* The external collaborators, zlib (`flate2`) and pickle
  (`serde_pickle`), are parameters of the embedding: `comp`/`decomp` for
  zlib deflate/inflate and `enc`/`dec` for pickle
  serialization/deserialization of the index value. Theorems that need
  them correct assume the corresponding round-trip equations, which is
  the contract the source code relies on. The filesystem used by
  `Content::File` is likewise a parameter `fs`.
* In-memory readers and writers (`Cursor<Vec<u8>>`) are byte lists; a
  seek to absolute position `p` followed by a bounded read of `n` bytes
  is `(stream.drop p).take n`, matching `Cursor` semantics (reads past
  the end return the available bytes).
-/

/-- The number of values of a `u64`. -/
def U64 : Nat := 2 ^ 64

/-- Byte string of an ASCII string literal (UTF-8 bytes of a Rust `&str`). -/
def str (s : String) : List Nat := s.data.map Char.toNat

/-- Is `b` a UTF-8 continuation byte (`0x80..=0xBF`)? -/
def isCont (b : Nat) : Bool := decide (128 ≤ b) && decide (b ≤ 191)

/-- UTF-8 validity of a byte sequence, as checked by Rust's `String`
conversions (`read_to_string`, `read_line`). Overlong encodings and
surrogates are rejected, matching `core::str::from_utf8`. The first
argument is recursion fuel (the list length always suffices, one byte is
consumed per step). -/
def utf8ValidF : Nat → List Nat → Bool
  | _, [] => true
  | 0, _ :: _ => false
  | fuel + 1, b :: rest =>
    if b ≤ 127 then utf8ValidF fuel rest
    else if 194 ≤ b && b ≤ 223 then
      match rest with
      | c :: rest2 => isCont c && utf8ValidF fuel rest2
      | _ => false
    else if b == 224 then
      match rest with
      | c :: d :: rest2 => (decide (160 ≤ c) && decide (c ≤ 191)) && isCont d && utf8ValidF fuel rest2
      | _ => false
    else if (225 ≤ b && b ≤ 236) || b == 238 || b == 239 then
      match rest with
      | c :: d :: rest2 => isCont c && isCont d && utf8ValidF fuel rest2
      | _ => false
    else if b == 237 then
      match rest with
      | c :: d :: rest2 => (decide (128 ≤ c) && decide (c ≤ 159)) && isCont d && utf8ValidF fuel rest2
      | _ => false
    else if b == 240 then
      match rest with
      | c :: d :: e :: rest2 =>
        (decide (144 ≤ c) && decide (c ≤ 191)) && isCont d && isCont e && utf8ValidF fuel rest2
      | _ => false
    else if 241 ≤ b && b ≤ 243 then
      match rest with
      | c :: d :: e :: rest2 => isCont c && isCont d && isCont e && utf8ValidF fuel rest2
      | _ => false
    else if b == 244 then
      match rest with
      | c :: d :: e :: rest2 =>
        (decide (128 ≤ c) && decide (c ≤ 143)) && isCont d && isCont e && utf8ValidF fuel rest2
      | _ => false
    else false

/-- UTF-8 validity of a byte sequence (fuel instantiated with the length). -/
def utf8Valid (l : List Nat) : Bool := utf8ValidF l.length l

/-- Value of one hexadecimal digit byte (`0-9`, `a-f`, `A-F`), as accepted
by `u64::from_str_radix(_, 16)`. -/
def hexDigit? (b : Nat) : Option Nat :=
  if 48 ≤ b ∧ b ≤ 57 then some (b - 48)
  else if 97 ≤ b ∧ b ≤ 102 then some (b - 87)
  else if 65 ≤ b ∧ b ≤ 70 then some (b - 55)
  else none

/-- Accumulating hexadecimal digit parser. -/
def parseHexGo (acc : Nat) : List Nat → Option Nat
  | [] => some acc
  | d :: rest =>
    match hexDigit? d with
    | some v => parseHexGo (acc * 16 + v) rest
    | none => none

/-- Parse a nonempty unsigned hexadecimal digit string. -/
def parseHexNat : List Nat → Option Nat
  | [] => none
  | l => parseHexGo 0 l

/-- Model of `u64::from_str_radix(s, 16)`: an optional `+` sign, then at
least one hexadecimal digit; the value must fit in a `u64`. A `-` sign
is not accepted for an unsigned target (the sign arm of the standard
library parser is guarded by `is_signed_ty`), so a leading `-` byte
fails like any other non-digit byte. -/
def parseHexU64 (s : List Nat) : Option Nat :=
  match s with
  | 43 :: rest =>
    match parseHexNat rest with
    | some v => if v < U64 then some v else none
    | none => none
  | _ =>
    match parseHexNat s with
    | some v => if v < U64 then some v else none
    | none => none

/-- Byte of one lowercase hexadecimal digit. -/
def hexChar (d : Nat) : Nat := if d < 10 then 48 + d else 87 + d

/-- Hexadecimal digits of `n`, most significant first, with fuel for the
number of digits; 16 digits of fuel are exact for every `u64` value. -/
def toHexCore : Nat → Nat → List Nat
  | _, 0 => []
  | 0, _ + 1 => []
  | fuel + 1, n + 1 => toHexCore fuel ((n + 1) / 16) ++ [hexChar ((n + 1) % 16)]

/-- Lowercase hexadecimal rendering of a `u64` value (`{:x}`). -/
def toHex (n : Nat) : List Nat := if n = 0 then [48] else toHexCore 16 n

/-- Zero-padded hexadecimal rendering of a `u64` value (`{:0Wx}`): the
width is a minimum, longer values are not truncated. -/
def fmtHex (width n : Nat) : List Nat :=
  List.replicate (width - (toHex n).length) 48 ++ toHex n

/-- Model of `BufRead::read_line` content: the bytes up to and including
the first newline, or all remaining bytes when no newline is present. -/
def readLineBytes : List Nat → List Nat
  | [] => []
  | b :: rest => if b = 10 then [10] else b :: readLineBytes rest

/-- Model of Rust `str::split(" ")` on a byte string: split at every
space, keeping empty pieces. -/
def splitSpace : List Nat → List (List Nat)
  | [] => [[]]
  | b :: rest =>
    if b = 32 then [] :: splitSpace rest
    else
      match splitSpace rest with
      | p :: ps => (b :: p) :: ps
      | [] => [[b]]

/-- Byte-lexicographic strict order on byte strings (Rust `String`'s
`Ord`, used by `BTreeMap`). -/
def lexLt : List Nat → List Nat → Bool
  | [], [] => false
  | [], _ :: _ => true
  | _ :: _, [] => false
  | a :: as, b :: bs => if a < b then true else if b < a then false else lexLt as bs

/-- Insert into a key-sorted association list, replacing an equal key. -/
def sortedInsert {α : Type} (k : List Nat) (v : α) :
    List (List Nat × α) → List (List Nat × α)
  | [] => [(k, v)]
  | (k2, v2) :: rest =>
    if lexLt k k2 then (k, v) :: (k2, v2) :: rest
    else if k = k2 then (k, v) :: rest
    else (k2, v2) :: sortedInsert k v rest

/-- Model of `BTreeMap::from_iter`: fold the pairs into a key-sorted
association list, later pairs replacing earlier ones with the same key. -/
def sortByKey {α : Type} (l : List (List Nat × α)) : List (List Nat × α) :=
  l.foldl (fun acc kv => sortedInsert kv.1 kv.2 acc) []

/-- Model of `HashMap::insert`: replace the value at an existing key in
place, otherwise append the new binding. -/
def insertReplace {α : Type} : List (List Nat × α) → List Nat → α → List (List Nat × α)
  | [], k, v => [(k, v)]
  | (k2, v2) :: rest, k, v =>
    if k = k2 then (k, v) :: rest else (k2, v2) :: insertReplace rest k v

/-- Model of `HashMap::get`. -/
def assocGet {α : Type} : List (List Nat × α) → List Nat → Option α
  | [], _ => none
  | (k, v) :: rest, p => if p = k then some v else assocGet rest p

/-- Archive format revisions (`version.rs`, `RpaVersion`). -/
inductive RpaVersion : Type where
  | v3_2
  | v3_0
  | v2_0
  | v1_0
deriving DecidableEq

/-- Library errors (`error.rs`, `RpaError`). The source spells the index
errors `SerializeIndex`/`DeserializeIndex`/`FormatIndex` at some call
sites and `SerializeRecord`/`DeserializeRecord`/`FormatRecord` in
`error.rs`; one constructor per error is used here. `io` wraps every
underlying I/O failure. -/
inductive RpaError : Type where
  | io
  | identifyVersion
  | parseOffset
  | parseKey
  | notFound (path : List Nat)
  | writingNotSupported (v : RpaVersion)
  | serializeIndex
  | deserializeIndex
  | formatRecord
deriving DecidableEq

/-- Outcome of fallible Rust code: a value, a returned `RpaError`, or a
panic (the source can panic on slice indexing and integer underflow). -/
inductive RResult (α : Type) : Type where
  | ok (a : α)
  | err (e : RpaError)
  | panic
deriving DecidableEq

/-- Pickle values, as used by the index table (`serde_pickle::Value`
restricted to the constructors the codec produces and consumes: signed
64-bit integers, byte strings, lists, and string-keyed dictionaries). -/
inductive PValue : Type where
  | i64 (v : Int)
  | bytes (bs : List Nat)
  | vlist (vs : List PValue)
  | dict (kvs : List (List Nat × PValue))

/-- Interpret a `u64` as an `i64` (Rust `as i64`): two's complement. -/
def toI64 (n : Nat) : Int :=
  if n % U64 < 2 ^ 63 then ((n % U64 : Nat) : Int) else ((n % U64 : Nat) : Int) - (U64 : Int)

/-- Interpret an `i64` as a `u64` (Rust `as u64`): two's complement. -/
def toU64 (i : Int) : Nat := (i % (U64 : Int)).toNat

/-- An index entry (`record.rs`, `Record`): start offset, length, and an
optional literal prefix. The field `pfix` models the source field
`prefix` (a reserved word in Lean). -/
structure Record : Type where
  start : Nat
  length : Nat
  pfix : Option (List Nat)
deriving DecidableEq

/-- `Record::new`: xor `start` and `length` with the key when one is
present (xor is self-inverse, so the same constructor obfuscates and
deobfuscates); the prefix is stored untouched. -/
def Record.new (start length : Nat) (pfix : Option (List Nat)) (key : Option Nat) : Record :=
  match key with
  | some k => ⟨start ^^^ k, length ^^^ k, pfix⟩
  | none => ⟨start, length, pfix⟩

/-- `Record::from_value`: the value must be a list whose first element is
an inner list `[start, length]` or `[start, length, prefix]` (trailing
elements of either list are ignored by the iterator-based code); both
integers are read as `i64` and cast to `u64`, and the record is built via
`Record::new` with the key. -/
def Record.from_value (v : PValue) (key : Option Nat) : RResult Record :=
  match v with
  | .vlist (.vlist inner :: _) =>
    match inner with
    | .i64 s :: .i64 l :: [] => .ok (Record.new (toU64 s) (toU64 l) none key)
    | .i64 s :: .i64 l :: .bytes p :: _ => .ok (Record.new (toU64 s) (toU64 l) (some p) key)
    | _ => .err .formatRecord
  | _ => .err .formatRecord

/-- `Record::into_value` (= `Index::into_value`): `[[start, length]]` or
`[[start, length, prefix]]`, the integers emitted as `i64`. -/
def Record.into_value (r : Record) : PValue :=
  .vlist [.vlist ([.i64 (toI64 r.start), .i64 (toI64 r.length)] ++
    (match r.pfix with
     | some p => [.bytes p]
     | none => []))]

/-- `Record::actual_length`: `length - prefix.len()` as an unchecked
`u64` subtraction; `none` models the underflow panic when the prefix is
longer than the recorded length. -/
def Record.actual_length (r : Record) : Option Nat :=
  match r.pfix with
  | some p => if p.length ≤ r.length then some (r.length - p.length) else none
  | none => some r.length

/-- `Record::scope`: seek the reader to `start` and take at most
`actual_length` bytes (a `Cursor` seek past the end succeeds and
subsequent reads return nothing). -/
def Record.scope (r : Record) (reader : List Nat) : RResult (List Nat) :=
  match r.actual_length with
  | some n => .ok ((reader.drop r.start).take n)
  | none => .panic

/-- `Record::copy_section`: build the scoped reader, write the prefix
(if any) with `write_all`, then `io::copy` the scope into the writer.
The returned count is the result of `io::copy` alone, i.e. the number of
bytes copied from the reader; the pair also carries the bytes that were
written to the writer. -/
def Record.copy_section (r : Record) (reader : List Nat) : RResult (Nat × List Nat) :=
  match r.scope reader with
  | .ok copied =>
    match r.pfix with
    | some p => .ok (copied.length, p ++ copied)
    | none => .ok (copied.length, copied)
  | .err e => .err e
  | .panic => .panic

/-- Content backing an archive entry (`content.rs`, `Content`). -/
inductive Content : Type where
  | record (r : Record)
  | file (path : List Nat)
  | raw (data : List Nat)
deriving DecidableEq

/-- `Content::copy_to`: a record copies from the archive reader, a file
is opened fresh from the filesystem `fs` (an unreadable path is an I/O
error), a raw buffer is copied directly. Returns the `io::copy`-style
count together with the bytes written. -/
def Content.copy_to (fs : List Nat → Option (List Nat)) (c : Content) (reader : List Nat) :
    RResult (Nat × List Nat) :=
  match c with
  | .record r => r.copy_section reader
  | .file p =>
    match fs p with
    | some data => .ok (data.length, data)
    | none => .err .io
  | .raw data => .ok (data.length, data)

/-- `RpaVersion::identify`: match the 7-byte header string against the
known signatures, else fall back to the legacy revision when the file
name ends in `rpi`. -/
def RpaVersion.identify (file_name version : List Nat) : Option RpaVersion :=
  if version = str ("RPA-3.2") then some .v3_2
  else if version = str ("RPA-3.0") then some .v3_0
  else if version = str ("RPA-2.0") then some .v2_0
  else if (str ("rpi")).isSuffixOf file_name then some .v1_0
  else none

/-- `RpaVersion::header_length`: the fixed rewritten-header byte count
for the write-supporting versions, `WritingNotSupported` otherwise. -/
def RpaVersion.header_length : RpaVersion → RResult Nat
  | .v3_0 => .ok 34
  | .v2_0 => .ok 25
  | v => .err (.writingNotSupported v)

/-- An open archive (`archive.rs`, `RenpyArchive`): the reader it owns,
the optional obfuscation key, the index-table offset, the version, and
the path-keyed content map. -/
structure RenpyArchive : Type where
  reader : List Nat
  key : Option Nat
  offset : Nat
  version : RpaVersion
  content : List (List Nat × Content)

/-- `RenpyArchive::version`: read up to 7 bytes into a string (an I/O
error on invalid UTF-8) and identify, `IdentifyVersion` when
identification fails. -/
def RenpyArchive.versionOf (stream file_name : List Nat) : RResult RpaVersion :=
  let hdr := stream.take 7
  if utf8Valid hdr then
    match RpaVersion.identify file_name hdr with
    | some v => .ok v
    | none => .err .identifyVersion
  else .err .io

/-- Xor-fold of hexadecimal subkey tokens (`key ^= from_str_radix(...)`),
failing with `ParseKey` on the first invalid token. -/
def xorFold (acc : Nat) : List (List Nat) → RResult Nat
  | [] => .ok acc
  | t :: rest =>
    match parseHexU64 t with
    | some k => xorFold (acc ^^^ k) rest
    | none => .err .parseKey

/-- Convert the deserialized index dictionary into the content map: each
value goes through `Record::from_value` (the first failure aborts), and
the entries are inserted into the map in iteration order. -/
def buildContent (key : Option Nat) :
    List (List Nat × PValue) → List (List Nat × Content) → RResult (List (List Nat × Content))
  | [], acc => .ok acc
  | (p, v) :: rest, acc =>
    match Record.from_value v key with
    | .ok r => buildContent key rest (insertReplace acc p (.record r))
    | .err e => .err e
    | .panic => .panic

/-- `RenpyArchive::metadata`, reading from `stream` with the reader
positioned at `pos`. Steps: `read_line` (UTF-8 checked), strip the last
byte (panicking on an empty line or a non-boundary cut, as the slice
`[..len - 1]` does), split on spaces, parse token 1 as the hex offset
(`ParseOffset` on failure), xor-fold the subkey tokens for V3_0 (from
token 2) and V3_2 (from token 3) (`ParseKey` on failure), then seek to
the offset, read to the end, zlib-inflate (`decomp`, an I/O error on
failure) and pickle-deserialize (`dec`) into a string-keyed dictionary
(`DeserializeIndex` on failure), and build the content map. Accessing a
missing token 1 panics (index out of bounds), as in the source. -/
def RenpyArchive.metadata (dec : List Nat → Option PValue)
    (decomp : List Nat → Option (List Nat)) (v : RpaVersion)
    (stream : List Nat) (pos : Nat) :
    RResult (Nat × Option Nat × List (List Nat × Content)) :=
  let line := readLineBytes (stream.drop pos)
  if utf8Valid line then
    match line.getLast? with
    | none => .panic
    | some lb =>
      if 128 ≤ lb ∧ lb < 192 then .panic
      else
        let parts := splitSpace line.dropLast
        match parts.get? 1 with
        | none => .panic
        | some offTok =>
          match parseHexU64 offTok with
          | none => .err .parseOffset
          | some offset =>
            let keyRes : RResult (Option Nat) :=
              match v with
              | .v3_0 =>
                match xorFold 0 (parts.drop 2) with
                | .ok k => .ok (some k)
                | .err e => .err e
                | .panic => .panic
              | .v3_2 =>
                match xorFold 0 (parts.drop 3) with
                | .ok k => .ok (some k)
                | .err e => .err e
                | .panic => .panic
              | _ => .ok none
            match keyRes with
            | .err e => .err e
            | .panic => .panic
            | .ok key =>
              match decomp (stream.drop offset) with
              | none => .err .io
              | some contents =>
                match dec contents with
                | some (.dict kvs) =>
                  match buildContent key kvs [] with
                  | .ok content => .ok (offset, key, content)
                  | .err e => .err e
                  | .panic => .panic
                | _ => .err .deserializeIndex
  else .err .io

/-- `RenpyArchive::read`: identify the version from the first (up to) 7
bytes with an empty file name, then parse the metadata from there. -/
def RenpyArchive.read (dec : List Nat → Option PValue)
    (decomp : List Nat → Option (List Nat)) (stream : List Nat) : RResult RenpyArchive :=
  match RenpyArchive.versionOf stream [] with
  | .ok v =>
    match RenpyArchive.metadata dec decomp v stream (stream.take 7).length with
    | .ok (offset, key, content) => .ok ⟨stream, key, offset, v, content⟩
    | .err e => .err e
    | .panic => .panic
  | .err e => .err e
  | .panic => .panic

/-- `RenpyArchive::copy_file`: look the path up in the content map and
materialize it against the archive's own reader; a missing path is the
`NotFound` error. -/
def RenpyArchive.copy_file (fs : List Nat → Option (List Nat)) (a : RenpyArchive)
    (path : List Nat) : RResult (Nat × List Nat) :=
  match assocGet a.content path with
  | some c => c.copy_to fs a.reader
  | none => .err (.notFound path)

/-- The header string `flush` formats after rewinding:
`"RPA-3.0 {offset:016x} {key:08x}\n"` for V3_0 and
`"RPA-2.0 {offset:016x}\n"` for V2_0; the other versions return the
`WritingNotSupported` error in the source `match`. -/
def flushHeader (v : RpaVersion) (offset key : Nat) : Option (List Nat) :=
  match v with
  | .v3_0 => some (str ("RPA-3.0 ") ++ fmtHex 16 offset ++ [32] ++ fmtHex 8 key ++ [10])
  | .v2_0 => some (str ("RPA-2.0 ") ++ fmtHex 16 offset ++ [10])
  | _ => none

/-- The content-copy loop of `flush`: materialize each entry to the
writer, record a fresh index entry `Record::new(offset, length, None,
key)` for its path, and advance the running offset by the returned
length (a `u64` accumulator). Returns the final offset and the new index
entries, with the writer state threaded through even on failure. The
content map's keys are unique (the source map is a `HashMap`), so the
new index map is modelled as an appended association list. -/
def flushLoop (fs : List Nat → Option (List Nat)) (reader : List Nat) (key : Option Nat) :
    List (List Nat × Content) → Nat → List Nat → List (List Nat × Record) →
    RResult (Nat × List (List Nat × Record)) × List Nat
  | [], offset, w, idx => (.ok (offset, idx), w)
  | (path, c) :: rest, offset, w, idx =>
    match c.copy_to fs reader with
    | .ok (len, bytes) =>
      flushLoop fs reader key rest ((offset + len) % U64) (w ++ bytes)
        (idx ++ [(path, Record.new offset len none key)])
    | .err e => (.err e, w)
    | .panic => (.panic, w)

/-- `RenpyArchive::flush`: resolve the placeholder header length
(`WritingNotSupported` stops before anything is written), write that many
zero bytes, run the content-copy loop, serialize the new index entries
as a pickle dictionary (`BTreeMap` sorts by path) and zlib-compress it
(`enc`/`comp`), append it, then rewind and overwrite the start of the
writer with the real header. Returns the new index entries on success,
paired with the final writer state. -/
def RenpyArchive.flush (enc : PValue → List Nat) (comp : List Nat → List Nat)
    (fs : List Nat → Option (List Nat)) (a : RenpyArchive) (w : List Nat) :
    RResult (List (List Nat × Record)) × List Nat :=
  match a.version.header_length with
  | .err e => (.err e, w)
  | .panic => (.panic, w)
  | .ok n =>
    match flushLoop fs a.reader a.key a.content n (w ++ List.replicate n 0) [] with
    | (.err e, w2) => (.err e, w2)
    | (.panic, w2) => (.panic, w2)
    | (.ok (offset, idx), w2) =>
      let values := PValue.dict (sortByKey (idx.map fun kv => (kv.1, kv.2.into_value)))
      let blob := comp (enc values)
      let w3 := w2 ++ blob
      match flushHeader a.version offset (a.key.getD 0) with
      | some hdr => (.ok idx, hdr ++ w3.drop hdr.length)
      | none => (.err (.writingNotSupported a.version), w3)

/-! ### Derived definitions used to state and prove the claims -/

/-- Total byte length of a list of raw entries. -/
def totalLen (es : List (List Nat × List Nat)) : Nat := (es.map fun e => e.2.length).sum

/-- Concatenated bodies of a list of raw entries, in map order: the body
`flush` writes for a content map of in-memory buffers. -/
def flatData (es : List (List Nat × List Nat)) : List Nat := (es.map fun e => e.2).flatten

/-- The index entries `flush` records for a list of raw entries starting
at `off`: `Record::new(offset, length, None, key)` per entry, the
offset advancing by each entry's length (u64 accumulator). -/
def rawIndexes (key : Option Nat) : List (List Nat × List Nat) → Nat → List (List Nat × Record)
  | [], _ => []
  | (p, d) :: rest, off =>
    (p, Record.new off d.length none key) :: rawIndexes key rest ((off + d.length) % U64)

/-- The running offset after flushing a list of raw entries. -/
def offAfter : List (List Nat × List Nat) → Nat → Nat
  | [], off => off
  | (_, d) :: rest, off => offAfter rest ((off + d.length) % U64)

/-- The pickle dictionary `flush` serializes for raw entries starting at
offset `n` (sorted by path, as `BTreeMap` iteration is). -/
def flushDict (key : Option Nat) (es : List (List Nat × List Nat)) (n : Nat) : PValue :=
  PValue.dict (sortByKey ((rawIndexes key es n).map fun kv => (kv.1, kv.2.into_value)))

/-- The V3_0 header line with a given offset and key. -/
def hdr3 (off k : Nat) : List Nat :=
  str ("RPA-3.0 ") ++ fmtHex 16 off ++ [32] ++ fmtHex 8 k ++ [10]

/-- The V2_0 header line with a given offset. -/
def hdr2 (off : Nat) : List Nat := str ("RPA-2.0 ") ++ fmtHex 16 off ++ [10]

/-- Join tokens with single spaces (inverse image of `split(" ")`). -/
def joinTok : List (List Nat) → List Nat
  | [] => []
  | [t] => t
  | t :: ts => t ++ 32 :: joinTok ts

/-- Record deserialized from a pickle value, defaulting on failure (used
only to name the successful result of `Record::from_value`). -/
def recordOf (key : Option Nat) (v : PValue) : Record :=
  match Record.from_value v key with
  | .ok r => r
  | _ => ⟨0, 0, none⟩

/-! ### Concrete instances used by witnesses and counterexamples -/

/-- Witness entries for the round-trip claim: two in-memory buffers. -/
def esW1 : List (List Nat × List Nat) := [(str ("a"), [1, 2, 3]), (str ("b"), [4])]

/-- The index dictionary the witness flush produces. -/
def dictW1 : PValue := flushDict (some 0) esW1 34

/-- Witness pickle encoder (constant; only its value on `dictW1` matters). -/
def encW1 : PValue → List Nat := fun _ => [0]

/-- Witness pickle decoder, inverse to `encW1` on `dictW1`. -/
def decW1 : List Nat → Option PValue := fun s => if s = [0] then some dictW1 else none

/-- Witness filesystem: no files. -/
def fsW1 : List Nat → Option (List Nat) := fun _ => none

/-- The C5 scenario header line, 34 bytes including the newline:
offset 0x22, key 0xff. -/
def hdrC5 : List Nat := str ("RPA-3.0 0000000000000022 000000ff") ++ [10]

/-- The C5 scenario stream: header followed by 0x22 bytes of payload. -/
def streamC5 : List Nat := hdrC5 ++ List.replicate 34 7

/-- The C5 index dictionary `{"a.txt": [[0, 10]]}` as a pickle value. -/
def dictC5 : PValue := .dict [(str ("a.txt"), .vlist [.vlist [.i64 0, .i64 10]])]

/-- A pickle decoder for the C5 scenario (the bytes after the seek are
the payload, since the stated offset 0x22 is the header length). -/
def decC5 : List Nat → Option PValue :=
  fun s => if s = List.replicate 34 7 then some dictC5 else none

/-! ### Byte-level and hexadecimal lemmas -/

theorem utf8ValidF_ascii : ∀ fuel : Nat, ∀ l : List Nat, l.length ≤ fuel →
    (∀ b ∈ l, b ≤ 127) → utf8ValidF fuel l = true
  | _, [], _, _ => by simp [utf8ValidF]
  | 0, b :: rest, hf, _ => by simp at hf
  | fuel + 1, b :: rest, hf, h => by
    have hb : b ≤ 127 := h b (List.mem_cons_self b rest)
    simp only [utf8ValidF, if_pos hb]
    exact utf8ValidF_ascii fuel rest (by simp at hf; omega)
      fun x hx => h x (List.mem_cons_of_mem b hx)

theorem utf8Valid_ascii (l : List Nat) (h : ∀ b ∈ l, b ≤ 127) : utf8Valid l = true :=
  utf8ValidF_ascii l.length l le_rfl h

theorem hexChar_range (d : Nat) (h : d < 16) :
    (48 ≤ hexChar d ∧ hexChar d ≤ 57) ∨ (97 ≤ hexChar d ∧ hexChar d ≤ 102) := by
  unfold hexChar; split <;> omega

theorem hexDigit?_hexChar (d : Nat) (h : d < 16) : hexDigit? (hexChar d) = some d := by
  interval_cases d <;> rfl

theorem toHexCore_digits : ∀ fuel n : Nat, ∀ b ∈ toHexCore fuel n,
    (48 ≤ b ∧ b ≤ 57) ∨ (97 ≤ b ∧ b ≤ 102)
  | _, 0 => by simp [toHexCore]
  | 0, _ + 1 => by simp [toHexCore]
  | fuel + 1, n + 1 => by
    intro b hb
    simp only [toHexCore, List.mem_append, List.mem_singleton] at hb
    rcases hb with hb | hb
    · exact toHexCore_digits fuel ((n + 1) / 16) b hb
    · subst hb; exact hexChar_range _ (Nat.mod_lt _ (by omega))

theorem toHex_digits (n : Nat) : ∀ b ∈ toHex n, (48 ≤ b ∧ b ≤ 57) ∨ (97 ≤ b ∧ b ≤ 102) := by
  intro b hb
  unfold toHex at hb
  split at hb
  · simp only [List.mem_singleton] at hb; omega
  · exact toHexCore_digits 16 n b hb

theorem fmtHex_digits (w n : Nat) : ∀ b ∈ fmtHex w n, (48 ≤ b ∧ b ≤ 57) ∨ (97 ≤ b ∧ b ≤ 102) := by
  intro b hb
  unfold fmtHex at hb
  rcases List.mem_append.mp hb with hb | hb
  · have := List.eq_of_mem_replicate hb; omega
  · exact toHex_digits n b hb

theorem parseHexGo_append (l1 : List Nat) : ∀ l2 : List Nat, ∀ a : Nat,
    parseHexGo a (l1 ++ l2) =
      match parseHexGo a l1 with
      | some b => parseHexGo b l2
      | none => none := by
  induction l1 with
  | nil => intro l2 a; rfl
  | cons d rest ih =>
    intro l2 a
    simp only [List.cons_append, parseHexGo]
    cases hexDigit? d with
    | some v => exact ih l2 (a * 16 + v)
    | none => rfl

theorem toHexCore_parse : ∀ fuel n : Nat, n < 16 ^ fuel → ∀ a : Nat,
    parseHexGo a (toHexCore fuel n) = some (a * 16 ^ (toHexCore fuel n).length + n)
  | fuel, 0, _, a => by simp [toHexCore, parseHexGo]
  | 0, n + 1, h, a => by simp at h
  | fuel + 1, n + 1, h, a => by
    have hm : (n + 1) / 16 < 16 ^ fuel := by
      rw [Nat.div_lt_iff_lt_mul (by omega)]
      calc n + 1 < 16 ^ (fuel + 1) := h
        _ = 16 ^ fuel * 16 := by ring
    simp only [toHexCore, parseHexGo_append, toHexCore_parse fuel ((n + 1) / 16) hm a]
    simp only [parseHexGo, hexDigit?_hexChar _ (Nat.mod_lt _ (by omega))]
    rw [List.length_append, List.length_singleton]
    congr 1
    have := Nat.div_add_mod (n + 1) 16
    rw [pow_succ]
    ring_nf
    omega

theorem toHex_ne_nil (n : Nat) : toHex n ≠ [] := by
  unfold toHex
  split
  · simp
  · rename_i h
    match hf : n, h with
    | m + 1, _ => simp [toHexCore]

theorem toHex_parse (n : Nat) (h : n < U64) : parseHexNat (toHex n) = some n := by
  by_cases h0 : n = 0
  · subst h0; rfl
  · have hne := toHex_ne_nil n
    unfold toHex at hne ⊢
    rw [if_neg h0] at hne ⊢
    obtain ⟨c, t, hct⟩ := List.exists_cons_of_ne_nil hne
    rw [hct]
    show parseHexGo 0 (c :: t) = some n
    rw [← hct]
    have := toHexCore_parse 16 n (by simpa [U64] using h) 0
    simpa using this

theorem parseHexGo_replicate48 : ∀ k : Nat, parseHexGo 0 (List.replicate k 48) = some 0
  | 0 => rfl
  | k + 1 => by
    show parseHexGo 0 (48 :: List.replicate k 48) = some 0
    simp only [parseHexGo]
    norm_num [hexDigit?]
    exact parseHexGo_replicate48 k

theorem fmtHex_parse (w n : Nat) (h : n < U64) : parseHexU64 (fmtHex w n) = some n := by
  have hne : fmtHex w n ≠ [] := by
    unfold fmtHex
    intro hx
    exact toHex_ne_nil n (List.append_eq_nil.mp hx).2
  obtain ⟨c, t, hct⟩ := List.exists_cons_of_ne_nil hne
  have hc : (48 ≤ c ∧ c ≤ 57) ∨ (97 ≤ c ∧ c ≤ 102) := by
    apply fmtHex_digits w n
    rw [hct]; exact List.mem_cons_self c t
  have hgo : parseHexGo 0 (fmtHex w n) = some n := by
    unfold fmtHex
    rw [parseHexGo_append, parseHexGo_replicate48]
    have := toHex_parse n h
    by_cases h0 : n = 0
    · subst h0; rfl
    · have hnn := toHex_ne_nil n
      obtain ⟨c2, t2, hct2⟩ := List.exists_cons_of_ne_nil hnn
      rw [hct2] at this ⊢
      exact this
  rw [hct] at hgo ⊢
  have h43 : c ≠ 43 := by omega
  unfold parseHexU64
  split
  · rename_i rest heq
    rw [List.cons.injEq] at heq
    exact absurd heq.1 h43
  · show (match parseHexNat (c :: t) with
      | some v => if v < U64 then some v else none
      | none => none) = some n
    have hpn : parseHexNat (c :: t) = some n := hgo
    rw [hpn]
    simp [h]

theorem toHexCore_length_le : ∀ fuel n k : Nat, n < 16 ^ k → k ≤ fuel →
    (toHexCore fuel n).length ≤ k
  | _, 0, _, _, _ => by simp [toHexCore]
  | 0, _ + 1, _, _, _ => by simp [toHexCore]
  | fuel + 1, n + 1, k, hn, hk => by
    match k, hn with
    | k2 + 1, hn => ?_
    have hm : (n + 1) / 16 < 16 ^ k2 := by
      rw [Nat.div_lt_iff_lt_mul (by omega)]
      calc n + 1 < 16 ^ (k2 + 1) := hn
        _ = 16 ^ k2 * 16 := by ring
    simp only [toHexCore, List.length_append, List.length_singleton]
    have := toHexCore_length_le fuel ((n + 1) / 16) k2 hm (by omega)
    omega

theorem toHex_length_le (n k : Nat) (hn : n < 16 ^ k) (h1 : 0 < k) (h16 : k ≤ 16) :
    (toHex n).length ≤ k := by
  unfold toHex
  split
  · simpa using h1
  · exact toHexCore_length_le 16 n k hn h16

theorem fmtHex_length (w n : Nat) (h1 : 0 < w) (h16 : w ≤ 16) (hn : n < 16 ^ w) :
    (fmtHex w n).length = w := by
  have := toHex_length_le n w hn h1 h16
  unfold fmtHex
  rw [List.length_append, List.length_replicate]
  omega

/-! ### Line reading and splitting lemmas -/

theorem readLineBytes_append (l : List Nat) (rest : List Nat) (h : ∀ b ∈ l, b ≠ 10) :
    readLineBytes (l ++ 10 :: rest) = l ++ [10] := by
  induction l with
  | nil => rfl
  | cons b t ih =>
    have hb : b ≠ 10 := h b (List.mem_cons_self b t)
    simp only [List.cons_append, readLineBytes, if_neg hb, List.append_eq]
    rw [ih fun x hx => h x (List.mem_cons_of_mem b hx)]

theorem splitSpace_ne_nil : ∀ l : List Nat, splitSpace l ≠ []
  | [] => by simp [splitSpace]
  | b :: rest => by
    simp only [splitSpace]
    split
    · simp
    · split
      · simp
      · simp

theorem splitSpace_nosplit (l : List Nat) (h : ∀ b ∈ l, b ≠ 32) : splitSpace l = [l] := by
  induction l with
  | nil => rfl
  | cons b t ih =>
    have hb : b ≠ 32 := h b (List.mem_cons_self b t)
    simp only [splitSpace, if_neg hb]
    rw [ih fun x hx => h x (List.mem_cons_of_mem b hx)]

theorem splitSpace_append (a : List Nat) (r : List Nat) (h : ∀ b ∈ a, b ≠ 32) :
    splitSpace (a ++ 32 :: r) = a :: splitSpace r := by
  induction a with
  | nil => simp [splitSpace]
  | cons b t ih =>
    have hb : b ≠ 32 := h b (List.mem_cons_self b t)
    simp only [List.cons_append, splitSpace, if_neg hb, List.append_eq]
    rw [ih fun x hx => h x (List.mem_cons_of_mem b hx)]

theorem joinTok_split : ∀ toks : List (List Nat), toks ≠ [] →
    (∀ t ∈ toks, ∀ b ∈ t, b ≠ 32) → splitSpace (joinTok toks) = toks
  | [], h, _ => absurd rfl h
  | [t], _, ha => by
    simp only [joinTok]
    exact splitSpace_nosplit t (ha t (List.mem_singleton_self t))
  | t :: t2 :: ts, _, ha => by
    show splitSpace (t ++ 32 :: joinTok (t2 :: ts)) = t :: t2 :: ts
    rw [splitSpace_append t _ (ha t (List.mem_cons_self t _))]
    rw [joinTok_split (t2 :: ts) (by simp) fun x hx => ha x (List.mem_cons_of_mem t hx)]

/-! ### Integer cast and record codec lemmas -/

theorem toU64_toI64 (n : Nat) (h : n < U64) : toU64 (toI64 n) = n := by
  unfold toI64 toU64
  rw [Nat.mod_eq_of_lt h]
  split
  · rw [Int.emod_eq_of_lt (by positivity) (by exact_mod_cast h)]
    simp
  · have h1 : ((n : Int) - (U64 : Nat)) = (n : Int) + ((U64 : Nat) : Int) * (-1) := by ring
    rw [h1, Int.add_mul_emod_self_left,
      Int.emod_eq_of_lt (by positivity) (by exact_mod_cast h)]
    simp

theorem record_roundtrip_some (s l k : Nat) (hs : s < U64) (hl : l < U64) (hk : k < U64) :
    Record.from_value ((Record.new s l none (some k)).into_value) (some k) =
      .ok ⟨s, l, none⟩ := by
  show Record.from_value
      (.vlist [.vlist [.i64 (toI64 (s ^^^ k)), .i64 (toI64 (l ^^^ k))]]) (some k) = _
  show RResult.ok (Record.new (toU64 (toI64 (s ^^^ k))) (toU64 (toI64 (l ^^^ k))) none (some k)) = _
  rw [toU64_toI64 _ (Nat.xor_lt_two_pow hs hk), toU64_toI64 _ (Nat.xor_lt_two_pow hl hk)]
  show RResult.ok (⟨s ^^^ k ^^^ k, l ^^^ k ^^^ k, none⟩ : Record) = _
  rw [Nat.xor_assoc, Nat.xor_self, Nat.xor_zero, Nat.xor_assoc, Nat.xor_self, Nat.xor_zero]

theorem record_roundtrip_none (s l : Nat) (hs : s < U64) (hl : l < U64) :
    Record.from_value ((Record.new s l none none).into_value) none = .ok ⟨s, l, none⟩ := by
  show Record.from_value (.vlist [.vlist [.i64 (toI64 s), .i64 (toI64 l)]]) none = _
  show RResult.ok (Record.new (toU64 (toI64 s)) (toU64 (toI64 l)) none none) = _
  rw [toU64_toI64 _ hs, toU64_toI64 _ hl]
  rfl

/-! ### Association list and sorting lemmas -/

theorem sortedInsert_perm {α : Type} (k : List Nat) (v : α) :
    ∀ l : List (List Nat × α), k ∉ l.map Prod.fst → (sortedInsert k v l).Perm ((k, v) :: l)
  | [], _ => by simp [sortedInsert]
  | (k2, v2) :: rest, h => by
    simp only [List.map_cons, List.mem_cons] at h
    push_neg at h
    simp only [sortedInsert]
    split
    · exact List.Perm.refl _
    · split
      · rename_i heq
        exact absurd heq h.1
      · exact ((sortedInsert_perm k v rest h.2).cons (k2, v2)).trans
          (List.Perm.swap (k, v) (k2, v2) rest)

theorem sortByKey_foldl_perm {α : Type} : ∀ l acc : List (List Nat × α),
    ((acc ++ l).map Prod.fst).Nodup →
    (List.foldl (fun acc kv => sortedInsert kv.1 kv.2 acc) acc l).Perm (acc ++ l)
  | [], acc, _ => by simp
  | (k, v) :: rest, acc, h => by
    have hnd2 : (k :: ((acc ++ rest).map Prod.fst)).Nodup := by
      have hp := (show (acc ++ (k, v) :: rest).Perm ((k, v) :: (acc ++ rest)) from
        List.perm_middle).map Prod.fst
      simpa using hp.nodup h
    have hk : k ∉ acc.map Prod.fst := by
      intro hmem
      exact (List.nodup_cons.mp hnd2).1 (by simp [hmem])
    have hperm : (sortedInsert k v acc).Perm ((k, v) :: acc) := sortedInsert_perm k v acc hk
    have hkeys : (((sortedInsert k v acc ++ rest)).map Prod.fst).Nodup := by
      have hp : ((sortedInsert k v acc ++ rest).map Prod.fst).Perm
          ((acc ++ (k, v) :: rest).map Prod.fst) := by
        apply List.Perm.map
        exact (hperm.append_right rest).trans List.perm_middle.symm
      exact hp.symm.nodup (by exact h)
    have ih := sortByKey_foldl_perm rest (sortedInsert k v acc) hkeys
    refine List.Perm.trans ih ?_
    refine List.Perm.trans (hperm.append_right rest) ?_
    exact List.perm_middle.symm

theorem sortByKey_perm {α : Type} (l : List (List Nat × α)) (h : (l.map Prod.fst).Nodup) :
    (sortByKey l).Perm l :=
  sortByKey_foldl_perm l [] (by simpa using h)

theorem assocGet_of_mem {α : Type} : ∀ l : List (List Nat × α), (l.map Prod.fst).Nodup →
    ∀ k v, (k, v) ∈ l → assocGet l k = some v
  | [], _, k, v, hm => absurd hm (List.not_mem_nil _)
  | (k2, v2) :: rest, h, k, v, hm => by
    simp only [List.map_cons, List.nodup_cons] at h
    simp only [assocGet]
    rcases List.mem_cons.mp hm with he | hm2
    · rw [Prod.mk.injEq] at he
      rw [if_pos he.1, he.2]
    · by_cases hk : k = k2
      · subst hk
        exact absurd (List.mem_map_of_mem Prod.fst hm2) h.1
      · rw [if_neg hk]
        exact assocGet_of_mem rest h.2 k v hm2

theorem insertReplace_not_mem {α : Type} : ∀ l : List (List Nat × α), ∀ k v,
    k ∉ l.map Prod.fst → insertReplace l k v = l ++ [(k, v)]
  | [], _, _, _ => rfl
  | (k2, v2) :: rest, k, v, h => by
    simp only [List.map_cons, List.mem_cons] at h
    push_neg at h
    simp only [insertReplace, if_neg h.1]
    rw [insertReplace_not_mem rest k v h.2]
    simp

theorem buildContent_ok (key : Option Nat) : ∀ kvs : List (List Nat × PValue),
    ∀ acc : List (List Nat × Content),
    (∀ kv ∈ kvs, ∃ r, Record.from_value kv.2 key = .ok r) →
    (acc.map Prod.fst ++ kvs.map Prod.fst).Nodup →
    buildContent key kvs acc =
      .ok (acc ++ kvs.map fun kv => (kv.1, Content.record (recordOf key kv.2)))
  | [], acc, _, _ => by simp [buildContent]
  | (p, v) :: rest, acc, h, hnd => by
    obtain ⟨r, hr⟩ := h (p, v) (List.mem_cons_self _ _)
    have hro : recordOf key v = r := by simp [recordOf, hr]
    have hp : p ∉ acc.map Prod.fst := by
      simp only [List.map_cons, List.nodup_append, List.nodup_cons] at hnd
      intro hmem
      exact hnd.2.2 hmem (List.mem_cons_self _ _)
    simp only [buildContent, hr]
    rw [insertReplace_not_mem acc p (Content.record r) hp]
    rw [buildContent_ok key rest (acc ++ [(p, Content.record r)])
      (fun kv hkv => h kv (List.mem_cons_of_mem _ hkv))
      (by
        simp only [List.map_append, List.map_cons, List.map_singleton] at hnd ⊢
        simpa using hnd)]
    simp [hro]

/-! ### Flush layout lemmas -/

theorem flushLoop_raw (fs : List Nat → Option (List Nat)) (reader : List Nat)
    (key : Option Nat) : ∀ es : List (List Nat × List Nat), ∀ off : Nat, ∀ w : List Nat,
    ∀ idx : List (List Nat × Record),
    flushLoop fs reader key (es.map fun e => (e.1, Content.raw e.2)) off w idx =
      (.ok (offAfter es off, idx ++ rawIndexes key es off), w ++ flatData es)
  | [], off, w, idx => by simp [flushLoop, offAfter, rawIndexes, flatData]
  | (p, d) :: rest, off, w, idx => by
    show flushLoop fs reader key ((p, Content.raw d) :: rest.map fun e => (e.1, Content.raw e.2))
      off w idx = _
    simp only [flushLoop, Content.copy_to]
    rw [flushLoop_raw fs reader key rest ((off + d.length) % U64) (w ++ d)
      (idx ++ [(p, Record.new off d.length none key)])]
    simp only [offAfter, rawIndexes, flatData, List.map_cons, List.flatten_cons]
    rw [List.append_assoc, List.append_assoc]
    simp [flatData]

theorem totalLen_cons (p : List Nat) (d : List Nat) (rest : List (List Nat × List Nat)) :
    totalLen ((p, d) :: rest) = d.length + totalLen rest := by
  simp [totalLen]

theorem offAfter_eq : ∀ es : List (List Nat × List Nat), ∀ off : Nat,
    off + totalLen es < U64 → offAfter es off = off + totalLen es
  | [], off, _ => by simp [offAfter, totalLen]
  | (p, d) :: rest, off, h => by
    rw [totalLen_cons] at h ⊢
    simp only [offAfter]
    rw [Nat.mod_eq_of_lt (by omega)]
    rw [offAfter_eq rest (off + d.length) (by omega)]
    omega

theorem rawIndexes_keys (key : Option Nat) : ∀ es : List (List Nat × List Nat), ∀ off : Nat,
    (rawIndexes key es off).map Prod.fst = es.map Prod.fst
  | [], _ => rfl
  | (p, d) :: rest, off => by
    simp only [rawIndexes, List.map_cons]
    rw [rawIndexes_keys key rest]

theorem flatData_length : ∀ es : List (List Nat × List Nat),
    (flatData es).length = totalLen es
  | [] => rfl
  | (p, d) :: rest => by
    simp only [flatData, totalLen, List.map_cons, List.flatten_cons, List.length_append,
      List.sum_cons]
    have := flatData_length rest
    simp only [flatData, totalLen] at this
    omega

theorem rawIndexes_spec (key : Option Nat) : ∀ es : List (List Nat × List Nat),
    ∀ off : Nat, ∀ W rest p d : List Nat,
    off = W.length → off + totalLen es < U64 → (p, d) ∈ es →
    ∃ s, off ≤ s ∧ s + d.length ≤ off + totalLen es ∧ s < U64 ∧
      (p, Record.new s d.length none key) ∈ rawIndexes key es off ∧
      ((W ++ (flatData es ++ rest)).drop s).take d.length = d
  | [], _, _, _, _, _, _, _, hm => absurd hm (List.not_mem_nil _)
  | (q, e) :: tail, off, W, rest, p, d, hW, hb, hm => by
    rw [totalLen_cons] at hb ⊢
    rcases List.mem_cons.mp hm with he | hm2
    · rw [Prod.mk.injEq] at he
      obtain ⟨hpq, hde⟩ := he
      subst hpq; subst hde
      refine ⟨off, le_rfl, by omega, by omega, ?_, ?_⟩
      · simp [rawIndexes]
      · have : flatData ((p, d) :: tail) = d ++ flatData tail := by simp [flatData]
        rw [this, hW]
        rw [show W ++ ((d ++ flatData tail) ++ rest) = W ++ (d ++ (flatData tail ++ rest)) by
          simp [List.append_assoc]]
        rw [List.drop_left]
        simp
    · have hmod : (off + e.length) % U64 = off + e.length := Nat.mod_eq_of_lt (by omega)
      obtain ⟨s, hs1, hs2, hs3, hs4, hs5⟩ := rawIndexes_spec key tail (off + e.length)
        (W ++ e) rest p d (by simp [hW]) (by omega) hm2
      refine ⟨s, by omega, by omega, hs3, ?_, ?_⟩
      · simp only [rawIndexes, hmod]
        exact List.mem_cons_of_mem _ hs4
      · rw [show W ++ (flatData ((q, e) :: tail) ++ rest) =
          (W ++ e) ++ (flatData tail ++ rest) by simp [flatData, List.append_assoc]]
        exact hs5

/-! ### Reading back a flushed header -/

theorem strRPA30sp : str ("RPA-3.0 ") = [82, 80, 65, 45, 51, 46, 48, 32] := rfl

theorem strRPA20sp : str ("RPA-2.0 ") = [82, 80, 65, 45, 50, 46, 48, 32] := rfl

theorem fmtHex_ne_10 (w n : Nat) : ∀ b ∈ fmtHex w n, b ≠ 10 := by
  intro b hb
  have := fmtHex_digits w n b hb
  omega

theorem fmtHex_ne_32 (w n : Nat) : ∀ b ∈ fmtHex w n, b ≠ 32 := by
  intro b hb
  have := fmtHex_digits w n b hb
  omega

theorem fmtHex_ascii (w n : Nat) : ∀ b ∈ fmtHex w n, b ≤ 127 := by
  intro b hb
  have := fmtHex_digits w n b hb
  omega

theorem hdr3_cons (off k : Nat) (tail : List Nat) :
    hdr3 off k ++ tail = 82 :: 80 :: 65 :: 45 :: 51 :: 46 :: 48 ::
      ((32 :: (fmtHex 16 off ++ 32 :: fmtHex 8 k)) ++ 10 :: tail) := by
  rw [hdr3, strRPA30sp]
  simp [List.append_assoc]

theorem hdr2_cons (off : Nat) (tail : List Nat) :
    hdr2 off ++ tail = 82 :: 80 :: 65 :: 45 :: 50 :: 46 :: 48 ::
      ((32 :: fmtHex 16 off) ++ 10 :: tail) := by
  rw [hdr2, strRPA20sp]
  simp [List.append_assoc]

theorem versionOf_hdr3 (off k : Nat) (tail : List Nat) :
    RenpyArchive.versionOf (hdr3 off k ++ tail) [] = .ok .v3_0 := by
  rw [RenpyArchive.versionOf, hdr3_cons]
  rfl

theorem versionOf_hdr2 (off : Nat) (tail : List Nat) :
    RenpyArchive.versionOf (hdr2 off ++ tail) [] = .ok .v2_0 := by
  rw [RenpyArchive.versionOf, hdr2_cons]
  rfl

theorem take7_hdr3 (off k : Nat) (tail : List Nat) :
    ((hdr3 off k ++ tail).take 7).length = 7 := by
  rw [hdr3_cons]
  rfl

theorem take7_hdr2 (off : Nat) (tail : List Nat) :
    ((hdr2 off ++ tail).take 7).length = 7 := by
  rw [hdr2_cons]
  rfl

theorem metadata_hdr3 (dec : List Nat → Option PValue) (decomp : List Nat → Option (List Nat))
    (off k : Nat) (tail : List Nat) (bs : List Nat) (kvs : List (List Nat × PValue))
    (content : List (List Nat × Content))
    (hoff : off < U64) (hk : k < U64)
    (hdecomp : decomp ((hdr3 off k ++ tail).drop off) = some bs)
    (hdec : dec bs = some (.dict kvs))
    (hbuild : buildContent (some k) kvs [] = .ok content) :
    RenpyArchive.metadata dec decomp .v3_0 (hdr3 off k ++ tail) 7 =
      .ok (off, some k, content) := by
  have hdrop : (hdr3 off k ++ tail).drop 7 =
      (32 :: (fmtHex 16 off ++ 32 :: fmtHex 8 k)) ++ 10 :: tail := by
    rw [hdr3_cons]
    rfl
  have hL10 : ∀ b ∈ 32 :: (fmtHex 16 off ++ 32 :: fmtHex 8 k), b ≠ 10 := by
    intro b hb
    rcases List.mem_cons.mp hb with h | h
    · omega
    · rcases List.mem_append.mp h with h | h
      · exact fmtHex_ne_10 16 off b h
      · rcases List.mem_cons.mp h with h | h
        · omega
        · exact fmtHex_ne_10 8 k b h
  have hline : readLineBytes ((hdr3 off k ++ tail).drop 7) =
      (32 :: (fmtHex 16 off ++ 32 :: fmtHex 8 k)) ++ [10] := by
    rw [hdrop]
    exact readLineBytes_append _ tail hL10
  have hascii : utf8Valid ((32 :: (fmtHex 16 off ++ 32 :: fmtHex 8 k)) ++ [10]) = true := by
    apply utf8Valid_ascii
    intro b hb
    rcases List.mem_append.mp hb with h | h
    · rcases List.mem_cons.mp h with h | h
      · omega
      · rcases List.mem_append.mp h with h | h
        · exact fmtHex_ascii 16 off b h
        · rcases List.mem_cons.mp h with h | h
          · omega
          · exact fmtHex_ascii 8 k b h
    · simp at h
      omega
  have hlast : ((32 :: (fmtHex 16 off ++ 32 :: fmtHex 8 k)) ++ [10]).getLast? = some 10 :=
    List.getLast?_concat _
  have hsplit : splitSpace ((32 :: (fmtHex 16 off ++ 32 :: fmtHex 8 k)) ++ [10]).dropLast =
      [[], fmtHex 16 off, fmtHex 8 k] := by
    rw [List.dropLast_concat]
    have h1 : splitSpace (32 :: (fmtHex 16 off ++ 32 :: fmtHex 8 k)) =
        [] :: splitSpace (fmtHex 16 off ++ 32 :: fmtHex 8 k) := by
      simp [splitSpace]
    rw [h1, splitSpace_append _ _ (fmtHex_ne_32 16 off),
      splitSpace_nosplit _ (fmtHex_ne_32 8 k)]
  rw [RenpyArchive.metadata]
  simp only [hline, hascii, if_true, hlast, hsplit]
  rw [if_neg (by omega)]
  rw [show ([([] : List Nat), fmtHex 16 off, fmtHex 8 k].get? 1) = some (fmtHex 16 off) from rfl]
  have hxf : xorFold 0 (List.drop 2 [([] : List Nat), fmtHex 16 off, fmtHex 8 k]) = .ok k := by
    rw [show List.drop 2 [([] : List Nat), fmtHex 16 off, fmtHex 8 k] = [fmtHex 8 k] from rfl]
    simp [xorFold, fmtHex_parse 8 k hk]
  simp only [fmtHex_parse 16 off hoff, hxf, hdecomp, hdec, hbuild]

theorem metadata_hdr2 (dec : List Nat → Option PValue) (decomp : List Nat → Option (List Nat))
    (off : Nat) (tail : List Nat) (bs : List Nat) (kvs : List (List Nat × PValue))
    (content : List (List Nat × Content))
    (hoff : off < U64)
    (hdecomp : decomp ((hdr2 off ++ tail).drop off) = some bs)
    (hdec : dec bs = some (.dict kvs))
    (hbuild : buildContent none kvs [] = .ok content) :
    RenpyArchive.metadata dec decomp .v2_0 (hdr2 off ++ tail) 7 =
      .ok (off, none, content) := by
  have hdrop : (hdr2 off ++ tail).drop 7 = (32 :: fmtHex 16 off) ++ 10 :: tail := by
    rw [hdr2_cons]
    rfl
  have hL10 : ∀ b ∈ 32 :: fmtHex 16 off, b ≠ 10 := by
    intro b hb
    rcases List.mem_cons.mp hb with h | h
    · omega
    · exact fmtHex_ne_10 16 off b h
  have hline : readLineBytes ((hdr2 off ++ tail).drop 7) = (32 :: fmtHex 16 off) ++ [10] := by
    rw [hdrop]
    exact readLineBytes_append _ tail hL10
  have hascii : utf8Valid ((32 :: fmtHex 16 off) ++ [10]) = true := by
    apply utf8Valid_ascii
    intro b hb
    rcases List.mem_append.mp hb with h | h
    · rcases List.mem_cons.mp h with h | h
      · omega
      · exact fmtHex_ascii 16 off b h
    · simp at h
      omega
  have hlast : ((32 :: fmtHex 16 off) ++ [10]).getLast? = some 10 := List.getLast?_concat _
  have hsplit : splitSpace ((32 :: fmtHex 16 off) ++ [10]).dropLast = [[], fmtHex 16 off] := by
    rw [List.dropLast_concat]
    have h1 : splitSpace (32 :: fmtHex 16 off) = [] :: splitSpace (fmtHex 16 off) := by
      simp [splitSpace]
    rw [h1, splitSpace_nosplit _ (fmtHex_ne_32 16 off)]
  rw [RenpyArchive.metadata]
  simp only [hline, hascii, if_true, hlast, hsplit]
  rw [if_neg (by omega)]
  rw [show ([([] : List Nat), fmtHex 16 off].get? 1) = some (fmtHex 16 off) from rfl]
  simp only [fmtHex_parse 16 off hoff, hdecomp, hdec, hbuild]

theorem rawIndexes_shape (key : Option Nat) : ∀ es : List (List Nat × List Nat), ∀ off : Nat,
    off + totalLen es < U64 →
    ∀ pr ∈ rawIndexes key es off, ∃ s l, s < U64 ∧ l < U64 ∧ pr.2 = Record.new s l none key
  | [], _, _, pr, hm => absurd hm (List.not_mem_nil _)
  | (q, e) :: tail, off, hb, pr, hm => by
    rw [totalLen_cons] at hb
    rcases List.mem_cons.mp hm with he | hm2
    · exact ⟨off, e.length, by omega, by omega, by rw [he]⟩
    · have hmod : (off + e.length) % U64 = off + e.length := Nat.mod_eq_of_lt (by omega)
      apply rawIndexes_shape key tail ((off + e.length) % U64)
      · omega
      · exact hm2

theorem flush_raw (enc : PValue → List Nat) (comp : List Nat → List Nat)
    (fs : List Nat → Option (List Nat)) (es : List (List Nat × List Nat))
    (rd : List Nat) (off0 : Nat) (v : RpaVersion) (key : Option Nat) (n : Nat) (H : List Nat)
    (hn : v.header_length = .ok n)
    (hhdr : flushHeader v (offAfter es n) (key.getD 0) = some H) :
    RenpyArchive.flush enc comp fs ⟨rd, key, off0, v, es.map fun e => (e.1, Content.raw e.2)⟩ [] =
      (.ok (rawIndexes key es n),
       H ++ ((List.replicate n 0 ++ (flatData es ++ comp (enc (flushDict key es n)))).drop
         H.length)) := by
  rw [RenpyArchive.flush]
  simp only [hn]
  rw [show (([] : List Nat) ++ List.replicate n 0) = List.replicate n 0 from by simp]
  rw [flushLoop_raw]
  simp only [List.nil_append, hhdr, flushDict]
  rw [List.append_assoc]

theorem flushed_content_spec (key : Option Nat) (es : List (List Nat × List Nat))
    (n : Nat) (H blob : List Nat)
    (hnd : (es.map Prod.fst).Nodup) (hb : n + totalLen es < U64) (hH : H.length = n)
    (hkey : ∀ k0, key = some k0 → k0 < U64) :
    ∃ content : List (List Nat × Content),
      buildContent key
        (sortByKey ((rawIndexes key es n).map fun kv => (kv.1, kv.2.into_value))) [] =
        .ok content ∧
      (content.map Prod.fst).Perm (es.map Prod.fst) ∧
      ∀ fs : List Nat → Option (List Nat), ∀ off2 : Nat, ∀ v2 : RpaVersion,
      ∀ p d : List Nat, (p, d) ∈ es →
        RenpyArchive.copy_file fs ⟨H ++ (flatData es ++ blob), key, off2, v2, content⟩ p =
          .ok (d.length, d) := by
  have h1 : ((rawIndexes key es n).map fun kv => (kv.1, kv.2.into_value)).map Prod.fst =
      es.map Prod.fst := by
    rw [List.map_map]
    exact rawIndexes_keys key es n
  have hnd_idxmap : (((rawIndexes key es n).map fun kv =>
      (kv.1, kv.2.into_value)).map Prod.fst).Nodup := by
    rw [h1]; exact hnd
  have hper : (sortByKey ((rawIndexes key es n).map fun kv =>
      (kv.1, kv.2.into_value))).Perm ((rawIndexes key es n).map fun kv =>
      (kv.1, kv.2.into_value)) :=
    sortByKey_perm _ hnd_idxmap
  have hkeysper : ((sortByKey ((rawIndexes key es n).map fun kv =>
      (kv.1, kv.2.into_value))).map Prod.fst).Perm (es.map Prod.fst) := by
    have := hper.map Prod.fst
    rwa [h1] at this
  have hnd_kvs : ((sortByKey ((rawIndexes key es n).map fun kv =>
      (kv.1, kv.2.into_value))).map Prod.fst).Nodup :=
    hkeysper.symm.nodup hnd
  have helem : ∀ kv ∈ sortByKey ((rawIndexes key es n).map fun kv =>
      (kv.1, kv.2.into_value)), ∃ r, Record.from_value kv.2 key = .ok r := by
    intro kv hkv
    have hkv2 : kv ∈ (rawIndexes key es n).map fun kv => (kv.1, kv.2.into_value) :=
      (hper.mem_iff).mp hkv
    obtain ⟨pr, hpr, hkveq⟩ := List.mem_map.mp hkv2
    obtain ⟨s, l, hsU, hlU, hshape⟩ := rawIndexes_shape key es n (by omega) pr hpr
    subst hkveq
    rw [hshape]
    cases key with
    | some k0 =>
      exact ⟨⟨s, l, none⟩, record_roundtrip_some s l k0 hsU hlU (hkey k0 rfl)⟩
    | none =>
      exact ⟨⟨s, l, none⟩, record_roundtrip_none s l hsU hlU⟩
  refine ⟨(sortByKey ((rawIndexes key es n).map fun kv => (kv.1, kv.2.into_value))).map
      fun kv => (kv.1, Content.record (recordOf key kv.2)), ?_, ?_, ?_⟩
  · have := buildContent_ok key
      (sortByKey ((rawIndexes key es n).map fun kv => (kv.1, kv.2.into_value))) []
      helem (by simpa using hnd_kvs)
    simpa using this
  · have hck : ((sortByKey ((rawIndexes key es n).map fun kv =>
        (kv.1, kv.2.into_value))).map fun kv =>
        (kv.1, Content.record (recordOf key kv.2))).map Prod.fst =
        (sortByKey ((rawIndexes key es n).map fun kv =>
        (kv.1, kv.2.into_value))).map Prod.fst := by
      rw [List.map_map]; rfl
    rw [hck]
    exact hkeysper
  · intro fs off2 v2 p d hm
    obtain ⟨s, hs1, hs2, hsU, hmem_idx, hslice⟩ :=
      rawIndexes_spec key es n H blob p d hH.symm hb hm
    have hlU : d.length < U64 := by omega
    have hkv_mem : (p, (Record.new s d.length none key).into_value) ∈
        (rawIndexes key es n).map fun kv => (kv.1, kv.2.into_value) :=
      List.mem_map_of_mem _ hmem_idx
    have hkv_kvs : (p, (Record.new s d.length none key).into_value) ∈
        sortByKey ((rawIndexes key es n).map fun kv => (kv.1, kv.2.into_value)) :=
      (hper.mem_iff).mpr hkv_mem
    have hro : recordOf key ((Record.new s d.length none key).into_value) =
        ⟨s, d.length, none⟩ := by
      cases key with
      | some k0 =>
        simp [recordOf, record_roundtrip_some s d.length k0 hsU hlU (hkey k0 rfl)]
      | none =>
        simp [recordOf, record_roundtrip_none s d.length hsU hlU]
    have hc_mem : (p, Content.record (⟨s, d.length, none⟩ : Record)) ∈
        (sortByKey ((rawIndexes key es n).map fun kv =>
          (kv.1, kv.2.into_value))).map fun kv =>
          (kv.1, Content.record (recordOf key kv.2)) := by
      refine List.mem_map.mpr ⟨(p, (Record.new s d.length none key).into_value), hkv_kvs, ?_⟩
      simp [hro]
    have hnd_content : (((sortByKey ((rawIndexes key es n).map fun kv =>
        (kv.1, kv.2.into_value))).map fun kv =>
        (kv.1, Content.record (recordOf key kv.2))).map Prod.fst).Nodup := by
      have hck : ((sortByKey ((rawIndexes key es n).map fun kv =>
          (kv.1, kv.2.into_value))).map fun kv =>
          (kv.1, Content.record (recordOf key kv.2))).map Prod.fst =
          (sortByKey ((rawIndexes key es n).map fun kv =>
          (kv.1, kv.2.into_value))).map Prod.fst := by
        rw [List.map_map]; rfl
      rw [hck]
      exact hnd_kvs
    have hget := assocGet_of_mem _ hnd_content p _ hc_mem
    rw [RenpyArchive.copy_file]
    simp only [hget]
    show Record.copy_section ⟨s, d.length, none⟩ (H ++ (flatData es ++ blob)) = _
    rw [Record.copy_section, Record.scope]
    show (match (Record.actual_length ⟨s, d.length, none⟩) with
      | some m => (match (⟨s, d.length, none⟩ : Record).pfix with
        | some p2 => RResult.ok ((((H ++ (flatData es ++ blob)).drop s).take m).length,
            p2 ++ (((H ++ (flatData es ++ blob)).drop s).take m))
        | none => RResult.ok ((((H ++ (flatData es ++ blob)).drop s).take m).length,
            ((H ++ (flatData es ++ blob)).drop s).take m))
      | none => RResult.panic) = _
    rw [show Record.actual_length ⟨s, d.length, none⟩ = some d.length from rfl]
    show RResult.ok ((((H ++ (flatData es ++ blob)).drop s).take d.length).length,
      ((H ++ (flatData es ++ blob)).drop s).take d.length) = _
    rw [hslice]

theorem hdr3_length (off k : Nat) (hoff : off < U64) (hk : k < 2 ^ 32) :
    (hdr3 off k).length = 34 := by
  have h16 : (fmtHex 16 off).length = 16 :=
    fmtHex_length 16 off (by norm_num) (by norm_num)
      (by rw [show (16 : Nat) ^ 16 = U64 from by norm_num [U64]]; exact hoff)
  have h8 : (fmtHex 8 k).length = 8 :=
    fmtHex_length 8 k (by norm_num) (by norm_num)
      (by rw [show (16 : Nat) ^ 8 = 2 ^ 32 from by norm_num]; exact hk)
  rw [hdr3]
  simp [h16, h8, strRPA30sp]

theorem hdr2_length (off : Nat) (hoff : off < U64) : (hdr2 off).length = 25 := by
  have h16 : (fmtHex 16 off).length = 16 :=
    fmtHex_length 16 off (by norm_num) (by norm_num)
      (by rw [show (16 : Nat) ^ 16 = U64 from by norm_num [U64]]; exact hoff)
  rw [hdr2]
  simp [h16, strRPA20sp]

/-! ### Claims -/

/-- Claim C1 (round-trip): for every content map whose entries are all
in-memory buffers (`Content::Raw`) and each write-supporting version
(V3_0 with a well-formed key of at most 8 hex digits, V2_0 with no key),
flushing the container into a fresh empty sink and then reading that sink
back yields a container whose content map holds exactly the same paths,
and materializing each path with `copy_file` writes exactly the original
buffer bytes. The external zlib and pickle codecs are assumed to
round-trip (`hzlib`, `hpickle`), which is the contract the source relies
on; `hbound` keeps the u64 offset accumulator from overflowing. -/
theorem c1_round_trip
    (enc : PValue → List Nat) (comp : List Nat → List Nat)
    (dec : List Nat → Option PValue) (decomp : List Nat → Option (List Nat))
    (fs : List Nat → Option (List Nat))
    (es : List (List Nat × List Nat)) (rd : List Nat) (off0 : Nat)
    (v : RpaVersion) (key : Option Nat)
    (hver : (v = .v3_0 ∧ ∃ k, key = some k ∧ k < 2 ^ 32) ∨ (v = .v2_0 ∧ key = none))
    (hnd : (es.map Prod.fst).Nodup)
    (hbound : 34 + totalLen es < U64)
    (hzlib : ∀ b : List Nat, decomp (comp b) = some b)
    (hpickle : ∀ n : Nat, v.header_length = .ok n →
      dec (enc (flushDict key es n)) = some (flushDict key es n)) :
    ∃ A : RenpyArchive,
      RenpyArchive.read dec decomp
        (RenpyArchive.flush enc comp fs
          ⟨rd, key, off0, v, es.map fun e => (e.1, Content.raw e.2)⟩ []).2 = .ok A ∧
      (A.content.map Prod.fst).Perm (es.map Prod.fst) ∧
      ∀ p d : List Nat, (p, d) ∈ es →
        RenpyArchive.copy_file fs A p = .ok (d.length, d) := by
  rcases hver with ⟨hv, k, hkeq, hk32⟩ | ⟨hv, hkeq⟩
  · subst hv; subst hkeq
    have hkU : k < U64 := by
      have : (2 : Nat) ^ 32 < 2 ^ 64 := by norm_num
      simp only [U64]; omega
    have hoffU : 34 + totalLen es < U64 := hbound
    have hT : offAfter es 34 = 34 + totalLen es := offAfter_eq es 34 hbound
    have hhdr : flushHeader .v3_0 (offAfter es 34) ((some k).getD 0) =
        some (hdr3 (34 + totalLen es) k) := by
      rw [hT]; rfl
    have hfl := flush_raw enc comp fs es rd off0 .v3_0 (some k) 34
      (hdr3 (34 + totalLen es) k) rfl hhdr
    have hH34 : (hdr3 (34 + totalLen es) k).length = 34 := hdr3_length _ _ hoffU hk32
    have hout : (RenpyArchive.flush enc comp fs
        ⟨rd, some k, off0, .v3_0, es.map fun e => (e.1, Content.raw e.2)⟩ []).2 =
        hdr3 (34 + totalLen es) k ++
          (flatData es ++ comp (enc (flushDict (some k) es 34))) := by
      rw [hfl]
      show _ ++ (List.replicate 34 0 ++ _).drop (hdr3 (34 + totalLen es) k).length = _
      rw [hH34, List.drop_left' (show (List.replicate 34 (0 : Nat)).length = 34 from by simp)]
    have hdrop : (hdr3 (34 + totalLen es) k ++
        (flatData es ++ comp (enc (flushDict (some k) es 34)))).drop (34 + totalLen es) =
        comp (enc (flushDict (some k) es 34)) := by
      rw [← List.append_assoc]
      exact List.drop_left' (by simp [hH34, flatData_length])
    have hdecomp : decomp ((hdr3 (34 + totalLen es) k ++
        (flatData es ++ comp (enc (flushDict (some k) es 34)))).drop (34 + totalLen es)) =
        some (enc (flushDict (some k) es 34)) := by
      rw [hdrop]; exact hzlib _
    obtain ⟨content, hbuild, hperm, hcopy⟩ :=
      flushed_content_spec (some k) es 34 (hdr3 (34 + totalLen es) k)
        (comp (enc (flushDict (some k) es 34))) hnd hoffU hH34
        (fun k0 hk0 => by cases hk0; exact hkU)
    have hdec3 : dec (enc (flushDict (some k) es 34)) =
        some (.dict (sortByKey ((rawIndexes (some k) es 34).map fun kv =>
          (kv.1, kv.2.into_value)))) := hpickle 34 rfl
    have hmeta := metadata_hdr3 dec decomp (34 + totalLen es) k
      (flatData es ++ comp (enc (flushDict (some k) es 34)))
      (enc (flushDict (some k) es 34))
      (sortByKey ((rawIndexes (some k) es 34).map fun kv => (kv.1, kv.2.into_value)))
      content hoffU hkU hdecomp hdec3 hbuild
    refine ⟨⟨hdr3 (34 + totalLen es) k ++
        (flatData es ++ comp (enc (flushDict (some k) es 34))),
      some k, 34 + totalLen es, .v3_0, content⟩, ?_, hperm, ?_⟩
    · rw [hout, RenpyArchive.read, versionOf_hdr3, take7_hdr3]
      dsimp only
      rw [hmeta]
    · intro p d hm
      exact hcopy fs (34 + totalLen es) .v3_0 p d hm
  · subst hv; subst hkeq
    have hoffU : 25 + totalLen es < U64 := by omega
    have hT : offAfter es 25 = 25 + totalLen es := offAfter_eq es 25 hoffU
    have hhdr : flushHeader .v2_0 (offAfter es 25) ((none : Option Nat).getD 0) =
        some (hdr2 (25 + totalLen es)) := by
      rw [hT]; rfl
    have hfl := flush_raw enc comp fs es rd off0 .v2_0 none 25
      (hdr2 (25 + totalLen es)) rfl hhdr
    have hH25 : (hdr2 (25 + totalLen es)).length = 25 := hdr2_length _ hoffU
    have hout : (RenpyArchive.flush enc comp fs
        ⟨rd, none, off0, .v2_0, es.map fun e => (e.1, Content.raw e.2)⟩ []).2 =
        hdr2 (25 + totalLen es) ++
          (flatData es ++ comp (enc (flushDict none es 25))) := by
      rw [hfl]
      show _ ++ (List.replicate 25 0 ++ _).drop (hdr2 (25 + totalLen es)).length = _
      rw [hH25, List.drop_left' (show (List.replicate 25 (0 : Nat)).length = 25 from by simp)]
    have hdrop : (hdr2 (25 + totalLen es) ++
        (flatData es ++ comp (enc (flushDict none es 25)))).drop (25 + totalLen es) =
        comp (enc (flushDict none es 25)) := by
      rw [← List.append_assoc]
      exact List.drop_left' (by simp [hH25, flatData_length])
    have hdecomp : decomp ((hdr2 (25 + totalLen es) ++
        (flatData es ++ comp (enc (flushDict none es 25)))).drop (25 + totalLen es)) =
        some (enc (flushDict none es 25)) := by
      rw [hdrop]; exact hzlib _
    obtain ⟨content, hbuild, hperm, hcopy⟩ :=
      flushed_content_spec none es 25 (hdr2 (25 + totalLen es))
        (comp (enc (flushDict none es 25))) hnd hoffU hH25
        (fun k0 hk0 => by cases hk0)
    have hdec2 : dec (enc (flushDict none es 25)) =
        some (.dict (sortByKey ((rawIndexes none es 25).map fun kv =>
          (kv.1, kv.2.into_value)))) := hpickle 25 rfl
    have hmeta := metadata_hdr2 dec decomp (25 + totalLen es)
      (flatData es ++ comp (enc (flushDict none es 25)))
      (enc (flushDict none es 25))
      (sortByKey ((rawIndexes none es 25).map fun kv => (kv.1, kv.2.into_value)))
      content hoffU hdecomp hdec2 hbuild
    refine ⟨⟨hdr2 (25 + totalLen es) ++
        (flatData es ++ comp (enc (flushDict none es 25))),
      none, 25 + totalLen es, .v2_0, content⟩, ?_, hperm, ?_⟩
    · rw [hout, RenpyArchive.read, versionOf_hdr2, take7_hdr2]
      dsimp only
      rw [hmeta]
    · intro p d hm
      exact hcopy fs (25 + totalLen es) .v2_0 p d hm

/-- Witness for C1: the round-trip theorem applied to the concrete
two-entry content map `esW1` under V3_0 with key 0 and a concrete codec. -/
theorem c1_round_trip_witness :
    ∃ A : RenpyArchive,
      RenpyArchive.read decW1 some
        (RenpyArchive.flush encW1 id fsW1
          ⟨[], some 0, 0, .v3_0, esW1.map fun e => (e.1, Content.raw e.2)⟩ []).2 = .ok A ∧
      (A.content.map Prod.fst).Perm (esW1.map Prod.fst) ∧
      ∀ p d : List Nat, (p, d) ∈ esW1 →
        RenpyArchive.copy_file fsW1 A p = .ok (d.length, d) :=
  c1_round_trip encW1 id decW1 some fsW1 esW1 [] 0 .v3_0 (some 0)
    (Or.inl ⟨rfl, 0, rfl, by norm_num⟩)
    (by decide)
    (by decide)
    (fun b => rfl)
    (fun n hn => by cases hn; rfl)

/-- Claim C7 (unsupported-write fast-fail): for every container whose
version is V3_2 or V1_0, `flush` returns `WritingNotSupported` carrying
that version, and the sink is exactly as it was (zero bytes written):
the failure comes from `header_length`, before any write. -/
theorem c7_unsupported_write (enc : PValue → List Nat) (comp : List Nat → List Nat)
    (fs : List Nat → Option (List Nat)) (a : RenpyArchive) (w : List Nat)
    (hv : a.version = .v3_2 ∨ a.version = .v1_0) :
    RenpyArchive.flush enc comp fs a w = (.err (.writingNotSupported a.version), w) := by
  rcases hv with hv | hv <;> rw [RenpyArchive.flush, hv] <;> rfl

/-- Witness for C7: a concrete V3_2 container flushed into an empty sink. -/
theorem c7_unsupported_write_witness :
    RenpyArchive.flush (fun _ => []) id (fun _ => none)
      ⟨[], none, 0, .v3_2, []⟩ [] = (.err (.writingNotSupported .v3_2), []) :=
  c7_unsupported_write (fun _ => []) id (fun _ => none) ⟨[], none, 0, .v3_2, []⟩ [] (Or.inl rfl)

/-- Claim C9 (obfuscation involution): obfuscating with `Record::new`
under a key and deobfuscating with the same key restores `start` and
`length` exactly, for all u64 values (xor cannot overflow, so this holds
for all naturals); deobfuscating with a different key never restores both
original values (in fact not even one of them). -/
theorem c9_obfuscation_involution (s l k k2 : Nat) (pfx pfx2 : Option (List Nat)) :
    (Record.new (Record.new s l pfx (some k)).start (Record.new s l pfx (some k)).length
        pfx2 (some k) = ⟨s, l, pfx2⟩) ∧
    (k ≠ k2 →
      ¬ ((Record.new (Record.new s l pfx (some k)).start
            (Record.new s l pfx (some k)).length pfx2 (some k2)).start = s ∧
         (Record.new (Record.new s l pfx (some k)).start
            (Record.new s l pfx (some k)).length pfx2 (some k2)).length = l)) := by
  constructor
  · show (⟨s ^^^ k ^^^ k, l ^^^ k ^^^ k, pfx2⟩ : Record) = ⟨s, l, pfx2⟩
    rw [Nat.xor_assoc, Nat.xor_self, Nat.xor_zero, Nat.xor_assoc, Nat.xor_self, Nat.xor_zero]
  · intro hk12 hcon
    have hstart : s ^^^ k ^^^ k2 = s := hcon.1
    apply hk12
    have h2 : s ^^^ (k ^^^ k2) = s := by rw [← Nat.xor_assoc]; exact hstart
    have h3 : k ^^^ k2 = 0 := by
      have h4 := congrArg (fun t => s ^^^ t) h2
      simpa [← Nat.xor_assoc, Nat.xor_self, Nat.zero_xor] using h4
    have h5 : k ^^^ k2 ^^^ k2 = 0 ^^^ k2 := by rw [h3]
    rwa [Nat.xor_assoc, Nat.xor_self, Nat.xor_zero, Nat.zero_xor] at h5

/-- Witness for C9: concrete values, distinct keys 0 and 1. -/
theorem c9_obfuscation_involution_witness :
    (Record.new (Record.new 5 7 none (some 3)).start (Record.new 5 7 none (some 3)).length
        none (some 3) = ⟨5, 7, none⟩) ∧
    ((3 : Nat) ≠ 1 →
      ¬ ((Record.new (Record.new 5 7 none (some 3)).start
            (Record.new 5 7 none (some 3)).length none (some 1)).start = 5 ∧
         (Record.new (Record.new 5 7 none (some 3)).start
            (Record.new 5 7 none (some 3)).length none (some 1)).length = 7)) :=
  c9_obfuscation_involution 5 7 3 1 none none

/-- Claim C10 (prefix-length underflow): `Record::from_value` accepts an
index entry whose length is smaller than its prefix's length (no
invariant enforcement); for such a record the u64 subtraction in
`actual_length` underflows (modelled as the panic outcome), so `scope`
and `copy_section` are panic-free exactly when
`prefix.len() <= length`. -/
theorem c10_from_value_underflow :
    (Record.from_value (.vlist [.vlist [.i64 0, .i64 1, .bytes [9, 9, 9, 9, 9]]]) none =
      .ok ⟨0, 1, some [9, 9, 9, 9, 9]⟩) ∧
    ((⟨0, 1, some [9, 9, 9, 9, 9]⟩ : Record).length <
      ((⟨0, 1, some [9, 9, 9, 9, 9]⟩ : Record).pfix.getD []).length) ∧
    (∀ r : Record, ∀ reader : List Nat,
      (r.scope reader = .panic ↔ r.length < (r.pfix.getD []).length) ∧
      (r.copy_section reader = .panic ↔ r.length < (r.pfix.getD []).length)) := by
  refine ⟨by decide, by decide, ?_⟩
  intro r reader
  rcases r with ⟨s, l, pfx⟩
  cases pfx with
  | none =>
    simp [Record.scope, Record.copy_section, Record.actual_length]
  | some p =>
    by_cases hle : p.length ≤ l <;>
      simp [Record.scope, Record.copy_section, Record.actual_length, hle] <;>
      omega

/-- Claim C2 (code bug): at a record with a non-empty prefix,
`copy_section` writes `prefix ++ payload` (here 3 = `length` bytes) to
the writer but returns only the `io::copy` count (1 byte, the payload
copied from the reader), not the total `length`; the claim and spec say
it returns the total. Input: `Record{start:0,length:3,prefix:[7,8]}`,
reader `[5]` (which holds `start + (length - prefix.len())` bytes). -/
theorem c2_copy_section_return :
    Record.copy_section ⟨0, 3, some [7, 8]⟩ [5] = .ok (1, [7, 8, 5]) ∧
    ([7, 8, 5] : List Nat).length = 3 ∧ (1 : Nat) ≠ 3 :=
  ⟨rfl, rfl, by decide⟩

/-- Claim C3 (code bug): flushing a container holding an opened record
with prefix `[7,8]` and length 3 writes the prefix literally at the
entry's new offset 34 (the output body is `[7,8,5]`), and the new index
entry has no prefix — both as the claim says — but the recorded length
is 1 (payload only), not the combined length 3 = `prefix.len() + payload`. -/
theorem c3_flush_prefix_bakein :
    (RenpyArchive.flush (fun _ => []) id (fun _ => none)
      ⟨[5, 9, 9], none, 0, .v3_0,
        [(str ("p"), .record ⟨0, 3, some [7, 8]⟩)]⟩ []).1 =
      .ok [(str ("p"), ⟨34, 1, none⟩)] ∧
    ((RenpyArchive.flush (fun _ => []) id (fun _ => none)
      ⟨[5, 9, 9], none, 0, .v3_0,
        [(str ("p"), .record ⟨0, 3, some [7, 8]⟩)]⟩ []).2).drop 34 = [7, 8, 5] ∧
    (1 : Nat) ≠ ([7, 8] : List Nat).length + 1 := by
  refine ⟨by decide, by decide, by decide⟩

/-- Counterexample for C4: with key `u64::MAX`, the V3_0 header formats
to 42 bytes (`{:08x}` is a minimum width, not a truncation), not the 34
bytes `header_length` reports, so the claim fails at the boundary value
`u64::MAX` it itself includes. -/
theorem c4_counterexample :
    (flushHeader .v3_0 0 (2 ^ 64 - 1)).map List.length = some 42 ∧
    RpaVersion.header_length .v3_0 = .ok 34 ∧ (42 : Nat) ≠ 34 :=
  ⟨by decide, rfl, by decide⟩

/-- Claim C4 amended: for every u64 offset and every key below `2^32`
(at most 8 hex digits — every key the library itself parses from an
8-hex-digit subkey or uses by default satisfies this), the formatted
header has byte length exactly `header_length()`: 34 for V3_0 and 25 for
V2_0; for keys at or above `2^32` the V3_0 header is longer than the
placeholder. -/
theorem c4_header_length (off key : Nat) (hoff : off < 2 ^ 64) (hkey : key < 2 ^ 32) :
    (∃ h3, flushHeader .v3_0 off key = some h3 ∧ h3.length = 34) ∧
    (∃ h2, flushHeader .v2_0 off key = some h2 ∧ h2.length = 25) ∧
    RpaVersion.header_length .v3_0 = .ok 34 ∧
    RpaVersion.header_length .v2_0 = .ok 25 :=
  ⟨⟨hdr3 off key, rfl, hdr3_length off key (by simpa [U64] using hoff) hkey⟩,
   ⟨hdr2 off, rfl, hdr2_length off (by simpa [U64] using hoff)⟩, rfl, rfl⟩

/-- Witness for C4 (amended): boundary values offset 0, key 0. -/
theorem c4_header_length_witness :
    (∃ h3, flushHeader .v3_0 0 0 = some h3 ∧ h3.length = 34) ∧
    (∃ h2, flushHeader .v2_0 0 0 = some h2 ∧ h2.length = 25) ∧
    RpaVersion.header_length .v3_0 = .ok 34 ∧
    RpaVersion.header_length .v2_0 = .ok 25 :=
  c4_header_length 0 0 (by norm_num) (by norm_num)

/-- Claim C8 (version identification): `identify` returns V3_2, V3_0 or
V2_0 exactly when the 7-byte header equals the corresponding signature;
otherwise it returns the legacy V1_0 exactly when the file name ends in
`rpi`, and `None` otherwise, in which case the archive-level `version`
reader fails with `IdentifyVersion`. -/
theorem c8_identify (name hdr : List Nat) :
    (RpaVersion.identify name hdr = some .v3_2 ↔ hdr = str ("RPA-3.2")) ∧
    (RpaVersion.identify name hdr = some .v3_0 ↔ hdr = str ("RPA-3.0")) ∧
    (RpaVersion.identify name hdr = some .v2_0 ↔ hdr = str ("RPA-2.0")) ∧
    (RpaVersion.identify name hdr = some .v1_0 ↔
      (hdr ≠ str ("RPA-3.2") ∧ hdr ≠ str ("RPA-3.0") ∧ hdr ≠ str ("RPA-2.0") ∧
        (str ("rpi")).isSuffixOf name = true)) ∧
    (RpaVersion.identify name hdr = none ↔
      (hdr ≠ str ("RPA-3.2") ∧ hdr ≠ str ("RPA-3.0") ∧ hdr ≠ str ("RPA-2.0") ∧
        ¬ (str ("rpi")).isSuffixOf name = true)) ∧
    (∀ stream : List Nat, utf8Valid (stream.take 7) = true →
      RpaVersion.identify name (stream.take 7) = none →
      RenpyArchive.versionOf stream name = .err .identifyVersion) := by
  refine ⟨?_, ?_, ?_, ?_, ?_, ?_⟩
  · unfold RpaVersion.identify
    split_ifs with h1 h2 h3 h4 <;> simp_all <;> decide
  · unfold RpaVersion.identify
    split_ifs with h1 h2 h3 h4 <;> simp_all <;> decide
  · unfold RpaVersion.identify
    split_ifs with h1 h2 h3 h4 <;> simp_all <;> decide
  · unfold RpaVersion.identify
    split_ifs with h1 h2 h3 h4 <;> simp_all <;> decide
  · unfold RpaVersion.identify
    split_ifs with h1 h2 h3 h4 <;> simp_all <;> decide
  · intro stream hu hnone
    rw [RenpyArchive.versionOf]
    simp only [hu, if_true, hnone]

/-- Witness for C8: the empty stream with file name `"a"` identifies as
nothing and `version` fails with `IdentifyVersion`. -/
theorem c8_identify_witness :
    RenpyArchive.versionOf [] (str ("a")) = .err .identifyVersion :=
  (c8_identify (str ("a")) []).2.2.2.2.2 [] (by decide) (by decide)

/-- Claim C5 amended: opening the scenario stream (header
`"RPA-3.0 0000000000000022 000000ff\n"` followed by the rest of the
stream, whose bytes from offset 0x22 deserialize to
`{"a.txt": [[0, 10]]}`) yields one `Record` entry with deobfuscated
`start = 0 ^ 0xff = 255` and `length = 10 ^ 0xff = 245` — as the claim
says — but `copy_file("a.txt", sink)` then copies the bytes
`(stream.drop 255).take 245` (clamped at end of stream), not 10 bytes:
the record's own deobfuscated length 245 governs the copy. -/
theorem c5_open_scenario (dec : List Nat → Option PValue)
    (decomp : List Nat → Option (List Nat)) (fs : List Nat → Option (List Nat))
    (body bs : List Nat)
    (hdecomp : decomp body = some bs)
    (hdec : dec bs = some dictC5) :
    RenpyArchive.read dec decomp (hdrC5 ++ body) =
      .ok ⟨hdrC5 ++ body, some 255, 34, .v3_0,
        [(str ("a.txt"), .record ⟨255, 245, none⟩)]⟩ ∧
    RenpyArchive.copy_file fs
      ⟨hdrC5 ++ body, some 255, 34, .v3_0,
        [(str ("a.txt"), .record ⟨255, 245, none⟩)]⟩ (str ("a.txt")) =
      .ok ((((hdrC5 ++ body).drop 255).take 245).length,
        ((hdrC5 ++ body).drop 255).take 245) := by
  have hh : hdrC5 = hdr3 34 255 := by decide
  have hdecomp2 : decomp ((hdr3 34 255 ++ body).drop 34) = some bs := by
    rw [List.drop_left' (show (hdr3 34 255).length = 34 from by decide)]
    exact hdecomp
  have hdec2 : dec bs = some (.dict [(str ("a.txt"),
      PValue.vlist [.vlist [.i64 0, .i64 10]])]) := hdec
  have hbuild : buildContent (some 255)
      [(str ("a.txt"), PValue.vlist [.vlist [.i64 0, .i64 10]])] [] =
      .ok [(str ("a.txt"), .record ⟨255, 245, none⟩)] := by decide
  have hmeta := metadata_hdr3 dec decomp 34 255 body bs
    [(str ("a.txt"), PValue.vlist [.vlist [.i64 0, .i64 10]])]
    [(str ("a.txt"), .record ⟨255, 245, none⟩)]
    (by decide) (by decide) hdecomp2 hdec2 hbuild
  constructor
  · rw [hh, RenpyArchive.read, versionOf_hdr3, take7_hdr3]
    dsimp only
    rw [hmeta]
  · rw [RenpyArchive.copy_file]
    rw [show assocGet [(str ("a.txt"), Content.record ⟨255, 245, none⟩)] (str ("a.txt")) =
      some (Content.record ⟨255, 245, none⟩) from by simp [assocGet]]
    rfl

/-- Counterexample for C5 as stated: in the concrete scenario stream
(68 bytes: 34-byte header plus 0x22 payload bytes), opening succeeds
with the record `(255, 245)` but `copy_file("a.txt")` writes 0 bytes
(offset 255 is past the end of the 68-byte stream), not 10. -/
theorem c5_counterexample :
    RenpyArchive.read decC5 some streamC5 =
      .ok ⟨streamC5, some 255, 34, .v3_0,
        [(str ("a.txt"), .record ⟨255, 245, none⟩)]⟩ ∧
    RenpyArchive.copy_file (fun _ => none)
      ⟨streamC5, some 255, 34, .v3_0,
        [(str ("a.txt"), .record ⟨255, 245, none⟩)]⟩ (str ("a.txt")) =
      .ok (0, []) ∧ (0 : Nat) ≠ 10 := by
  refine ⟨rfl, rfl, by decide⟩

/-- Witness for C5 (amended): the scenario instantiated with the
concrete 68-byte stream and a concrete codec. -/
theorem c5_open_scenario_witness :
    RenpyArchive.read decC5 some (hdrC5 ++ List.replicate 34 7) =
      .ok ⟨hdrC5 ++ List.replicate 34 7, some 255, 34, .v3_0,
        [(str ("a.txt"), .record ⟨255, 245, none⟩)]⟩ ∧
    RenpyArchive.copy_file (fun _ => none)
      ⟨hdrC5 ++ List.replicate 34 7, some 255, 34, .v3_0,
        [(str ("a.txt"), .record ⟨255, 245, none⟩)]⟩ (str ("a.txt")) =
      .ok ((((hdrC5 ++ List.replicate 34 7).drop 255).take 245).length,
        ((hdrC5 ++ List.replicate 34 7).drop 255).take 245) :=
  c5_open_scenario decC5 some (fun _ => none) (List.replicate 34 7)
    (List.replicate 34 7) rfl rfl

/-! ### Metadata error-path lemmas -/

theorem xorFold_err : ∀ l : List (List Nat), ∀ acc : Nat,
    (∃ t ∈ l, parseHexU64 t = none) → xorFold acc l = .err .parseKey
  | [], _, ⟨t, hm, _⟩ => absurd hm (List.not_mem_nil t)
  | h :: tl, acc, ⟨t, hm, hp⟩ => by
    simp only [xorFold]
    cases hph : parseHexU64 h with
    | none => rfl
    | some v =>
      rcases List.mem_cons.mp hm with he | hm2
      · subst he
        rw [hph] at hp
        cases hp
      · exact xorFold_err tl (acc ^^^ v) ⟨t, hm2, hp⟩

theorem xorFold_ok : ∀ l : List (List Nat), ∀ acc : Nat,
    (∀ t ∈ l, ∃ kv, parseHexU64 t = some kv) → ∃ k, xorFold acc l = .ok k
  | [], acc, _ => ⟨acc, rfl⟩
  | h :: tl, acc, hall => by
    obtain ⟨kv, hkv⟩ := hall h (List.mem_cons_self h tl)
    simp only [xorFold, hkv]
    exact xorFold_ok tl (acc ^^^ kv) fun t ht => hall t (List.mem_cons_of_mem h ht)

theorem joinTok_mem : ∀ toks : List (List Nat), ∀ b ∈ joinTok toks,
    b = 32 ∨ ∃ t ∈ toks, b ∈ t
  | [], b, hb => absurd hb (List.not_mem_nil b)
  | [t], b, hb => Or.inr ⟨t, List.mem_singleton_self t, hb⟩
  | t :: t2 :: ts, b, hb => by
    rcases List.mem_append.mp hb with h | h
    · exact Or.inr ⟨t, List.mem_cons_self t _, h⟩
    · rcases List.mem_cons.mp h with h | h
      · exact Or.inl h
      · rcases joinTok_mem (t2 :: ts) b h with h2 | ⟨t3, ht3, hbt3⟩
        · exact Or.inl h2
        · exact Or.inr ⟨t3, List.mem_cons_of_mem t ht3, hbt3⟩

theorem metadata_toks (dec : List Nat → Option PValue) (decomp : List Nat → Option (List Nat))
    (v : RpaVersion) (toks : List (List Nat)) (tail2 : List Nat)
    (hne : toks ≠ [])
    (hbytes : ∀ t ∈ toks, ∀ b ∈ t, b ≠ 32 ∧ b ≠ 10 ∧ b ≤ 127) :
    RenpyArchive.metadata dec decomp v (joinTok toks ++ 10 :: tail2) 0 =
      (match toks.get? 1 with
      | none => .panic
      | some offTok =>
        match parseHexU64 offTok with
        | none => .err .parseOffset
        | some offset =>
          match (match v with
            | RpaVersion.v3_0 =>
              (match xorFold 0 (toks.drop 2) with
               | RResult.ok k => RResult.ok (some k)
               | RResult.err e => RResult.err e
               | RResult.panic => RResult.panic)
            | RpaVersion.v3_2 =>
              (match xorFold 0 (toks.drop 3) with
               | RResult.ok k => RResult.ok (some k)
               | RResult.err e => RResult.err e
               | RResult.panic => RResult.panic)
            | _ => (RResult.ok none : RResult (Option Nat))) with
          | .err e => .err e
          | .panic => .panic
          | .ok key =>
            match decomp ((joinTok toks ++ 10 :: tail2).drop offset) with
            | none => .err .io
            | some contents =>
              match dec contents with
              | some (.dict kvs) =>
                (match buildContent key kvs [] with
                 | .ok content => .ok (offset, key, content)
                 | .err e => .err e
                 | .panic => .panic)
              | _ => .err .deserializeIndex) := by
  have h10 : ∀ b ∈ joinTok toks, b ≠ 10 := by
    intro b hb
    rcases joinTok_mem toks b hb with h | ⟨t, ht, hbt⟩
    · omega
    · exact ((hbytes t ht b hbt).2).1
  have hline : readLineBytes ((joinTok toks ++ 10 :: tail2).drop 0) =
      joinTok toks ++ [10] := by
    rw [List.drop_zero]
    exact readLineBytes_append _ tail2 h10
  have hascii : utf8Valid (joinTok toks ++ [10]) = true := by
    apply utf8Valid_ascii
    intro b hb
    rcases List.mem_append.mp hb with h | h
    · rcases joinTok_mem toks b h with h2 | ⟨t, ht, hbt⟩
      · omega
      · exact ((hbytes t ht b hbt).2).2
    · simp at h
      omega
  have hlast : (joinTok toks ++ [10]).getLast? = some 10 := List.getLast?_concat _
  have hsplit : splitSpace (joinTok toks ++ [10]).dropLast = toks := by
    rw [List.dropLast_concat]
    exact joinTok_split toks hne fun t ht b hb => (hbytes t ht b hb).1
  rw [RenpyArchive.metadata]
  simp only [hline, hascii, if_true, hlast, hsplit]
  rw [if_neg (by omega)]

/-- Claim C6 amended: for a first line made of space-separated ASCII
tokens, a present-but-malformed offset token yields `ParseOffset`, a
malformed subkey token yields `ParseKey` (V3_0 from token 2, V3_2 from
token 3), and a failure to deserialize the index table as a whole yields
`DeserializeIndex` — but a line with no space at all (offset token
missing) panics on the out-of-bounds index `metadata[1]` instead of
returning an error, so the original claim's "offset token missing"
case is a panic, not `ParseOffset`. -/
theorem c6_metadata_errors (dec : List Nat → Option PValue)
    (decomp : List Nat → Option (List Nat)) (toks : List (List Nat)) (tail2 : List Nat)
    (hne : toks ≠ [])
    (hbytes : ∀ t ∈ toks, ∀ b ∈ t, b ≠ 32 ∧ b ≠ 10 ∧ b ≤ 127) :
    (toks.length = 1 → ∀ v : RpaVersion,
      RenpyArchive.metadata dec decomp v (joinTok toks ++ 10 :: tail2) 0 = .panic) ∧
    (∀ v : RpaVersion, ∀ offTok, toks.get? 1 = some offTok → parseHexU64 offTok = none →
      RenpyArchive.metadata dec decomp v (joinTok toks ++ 10 :: tail2) 0 =
        .err .parseOffset) ∧
    (∀ offTok off, toks.get? 1 = some offTok → parseHexU64 offTok = some off →
      (∃ t ∈ toks.drop 2, parseHexU64 t = none) →
      RenpyArchive.metadata dec decomp .v3_0 (joinTok toks ++ 10 :: tail2) 0 =
        .err .parseKey) ∧
    (∀ offTok off, toks.get? 1 = some offTok → parseHexU64 offTok = some off →
      (∃ t ∈ toks.drop 3, parseHexU64 t = none) →
      RenpyArchive.metadata dec decomp .v3_2 (joinTok toks ++ 10 :: tail2) 0 =
        .err .parseKey) ∧
    (∀ offTok off bs, toks.get? 1 = some offTok → parseHexU64 offTok = some off →
      decomp ((joinTok toks ++ 10 :: tail2).drop off) = some bs →
      (dec bs = none ∨ ∀ kvs, dec bs ≠ some (.dict kvs)) →
      RenpyArchive.metadata dec decomp .v2_0 (joinTok toks ++ 10 :: tail2) 0 =
        .err .deserializeIndex) ∧
    (∀ offTok off bs, toks.get? 1 = some offTok → parseHexU64 offTok = some off →
      (∀ t ∈ toks.drop 2, ∃ kv, parseHexU64 t = some kv) →
      decomp ((joinTok toks ++ 10 :: tail2).drop off) = some bs →
      (dec bs = none ∨ ∀ kvs, dec bs ≠ some (.dict kvs)) →
      RenpyArchive.metadata dec decomp .v3_0 (joinTok toks ++ 10 :: tail2) 0 =
        .err .deserializeIndex) := by
  refine ⟨?_, ?_, ?_, ?_, ?_, ?_⟩
  · intro hlen v
    rw [metadata_toks dec decomp v toks tail2 hne hbytes]
    simp only [List.get?_eq_none.mpr (by omega : toks.length ≤ 1)]
  · intro v offTok hget hparse
    rw [metadata_toks dec decomp v toks tail2 hne hbytes]
    simp only [hget, hparse]
  · intro offTok off hget hparse hex
    rw [metadata_toks dec decomp .v3_0 toks tail2 hne hbytes]
    simp only [hget, hparse, xorFold_err (toks.drop 2) 0 hex]
  · intro offTok off hget hparse hex
    rw [metadata_toks dec decomp .v3_2 toks tail2 hne hbytes]
    simp only [hget, hparse, xorFold_err (toks.drop 3) 0 hex]
  · intro offTok off bs hget hparse hdecomp hdd
    rw [metadata_toks dec decomp .v2_0 toks tail2 hne hbytes]
    simp only [hget, hparse, hdecomp]
    rcases hdd with hnone | hnodict
    · simp [hnone]
    · cases hv : dec bs with
      | none => simp [hv]
      | some val =>
        cases val with
        | dict kvs => exact absurd hv (hnodict kvs)
        | i64 x => simp [hv]
        | bytes bsx => simp [hv]
        | vlist vs => simp [hv]
  · intro offTok off bs hget hparse hsub hdecomp hdd
    obtain ⟨k, hk⟩ := xorFold_ok (toks.drop 2) 0 hsub
    rw [metadata_toks dec decomp .v3_0 toks tail2 hne hbytes]
    simp only [hget, hparse, hk, hdecomp]
    rcases hdd with hnone | hnodict
    · simp [hnone]
    · cases hv : dec bs with
      | none => simp [hv]
      | some val =>
        cases val with
        | dict kvs => exact absurd hv (hnodict kvs)
        | i64 x => simp [hv]
        | bytes bsx => simp [hv]
        | vlist vs => simp [hv]

/-- Counterexample for C6 as stated: the stream `"RPA-3.0\n"` has a
present but malformed metadata line (the offset token is missing — no
space after the signature), and `read` panics (index out of bounds on
`metadata[1]`) instead of returning a parse error. -/
theorem c6_counterexample :
    RenpyArchive.read (fun _ => none) some (str ("RPA-3.0") ++ [10]) = .panic := rfl

/-- Witness for C6 (amended): the line `"RPA-3.0 zz\n"` has offset token
`"zz"`, which is not valid hexadecimal, and `metadata` returns
`ParseOffset`. -/
theorem c6_metadata_errors_witness :
    RenpyArchive.metadata (fun _ => none) some .v3_0
      (joinTok [str ("RPA-3.0"), str ("zz")] ++ 10 :: []) 0 = .err .parseOffset :=
  (c6_metadata_errors (fun _ => none) some [str ("RPA-3.0"), str ("zz")] []
    (by decide) (by decide)).2.1 .v3_0 (str ("zz")) rfl (by decide)
